import Mathlib

/-!
Shallow embedding of the route-matching and handler-dispatch core of the
`router` Go package (`router.go`), together with theorems checking the
package's specification against it.

Modelling conventions:
* Go strings are modelled as `List Char` (`Str`).
* Go maps are modelled as association lists built exclusively through
  `mapInsert`, which overwrites an existing binding in place — matching the
  semantics of Go map assignment.  `mapGet` is the comma-ok read.
* `buildRegexpFor` builds the very pattern string the Go code builds
  (`"^" ++ segments joined by "\/" ++ "$"`, with `([^\/]+)` at parameter
  segments, raw segment text elsewhere — the source applies no QuoteMeta).
  Go's `regexp` package is modelled by a compiler `parseReItems` /
  `compileRegexp` covering the fragment of RE2 syntax these patterns can use
  — literal characters, escaped ASCII punctuation (`\/` in particular), the
  metacharacter `.` (any character except newline), and the capture group
  `([^\/]+)` in the position the route compiler puts it (before `\/` or at
  the very end) — together with operational matchers `reFindSubmatch`
  (anchored, with captures) and `reMatchesAtStart` (`MatchString` of a
  `^`-anchored, end-unanchored pattern).  A pattern outside this fragment
  compiles to `none`: that covers both patterns on which
  `regexp.MustCompile` panics at registration time and valid patterns using
  unmodelled constructs; no theorem depends on that case.
* Handlers (`http.HandlerFunc`) are opaque values of a type parameter `H`;
  custom error responders are opaque values of a type parameter `R`.  Store
  keys and values (`interface{}`) are `K` and `Option V`, where `none` models
  the Go `nil` interface value (a Go map read of an absent key also yields
  `nil`, which is what `Option.getD none` captures below).
* Side effects of a handler-chain step are recorded as `Event`s: invoking a
  registered handler, invoking the defensive no-op sentinel, the default
  error responder writing the message verbatim with the given code
  (`http.Error`), a custom responder being called, or a call of a `nil`
  function value (a Go runtime panic).
-/

set_option autoImplicit false

namespace GoRouter

/-- Go strings, modelled as lists of characters. -/
abbrev Str := List Char

/-- `strings.Split(s, "/")`: split on every `/`, keeping empty segments;
the empty string splits into one empty segment. -/
def splitOnSlash : Str → List Str
  | [] => [[]]
  | c :: rest =>
    if c = '/' then [] :: splitOnSlash rest
    else
      match splitOnSlash rest with
      | [] => [[c]]
      | s :: ss => (c :: s) :: ss

/-- A Go map, as an association list whose keys stay unique because every
update goes through `mapInsert`. -/
abbrev GoMap (κ ν : Type) := List (κ × ν)

/-- Go map assignment `m[k] = v`: overwrite the binding of `k` in place if
present, otherwise add it at the end. -/
def mapInsert {κ ν : Type} [DecidableEq κ] : GoMap κ ν → κ → ν → GoMap κ ν
  | [], k, v => [(k, v)]
  | (k', v') :: rest, k, v =>
    if k' = k then (k', v) :: rest else (k', v') :: mapInsert rest k v

/-- Go comma-ok map read `v, ok := m[k]`. -/
def mapGet {κ ν : Type} [DecidableEq κ] : GoMap κ ν → κ → Option ν
  | [], _ => none
  | (k', v') :: rest, k => if k' = k then some v' else mapGet rest k

/-- Go `delete(m, k)`. -/
def mapDelete {κ ν : Type} [DecidableEq κ] : GoMap κ ν → κ → GoMap κ ν
  | [], _ => []
  | (k', v') :: rest, k => if k' = k then rest else (k', v') :: mapDelete rest k

/-- `strings.Trim(part, ":")`: remove every leading and trailing `:`. -/
def trimColon (s : Str) : Str :=
  ((s.dropWhile (· = ':')).reverse.dropWhile (· = ':')).reverse

/-- `strings.HasPrefix(part, ":")`. -/
def hasColonMarker (part : Str) : Bool := part.head? = some ':'

/-- One element of a compiled regular expression in the modelled RE2
fragment: a literal character, the metacharacter `.` (any character except
newline), or the capture group `([^\/]+)` (one or more non-`/` characters). -/
inductive ReItem : Type where
  | ch (c : Char)
  | dot
  | group
deriving DecidableEq, Repr

/-- The text following `(` in the capture group the route compiler inserts. -/
def groupTail : Str := ['[', '^', '\\', '/', ']', '+', ')']

/-- The text of the capture group the route compiler inserts: `([^\/]+)`. -/
def groupText : Str := '(' :: groupTail

/-- The escaped slash `\/` used to join segments. -/
def escSlash : Str := ['\\', '/']

/-- Unescaped RE2 metacharacters (and characters opening constructs) that the
model does not interpret; a pattern containing one of them outside the fixed
group falls outside the modelled fragment. -/
def reMetachars : List Char :=
  ['*', '+', '?', '|', '[', ']', '\x7b', '\x7d', ')', '^', '$']

/-- A character with no special meaning in an RE2 pattern, as the model
tracks it: not a metacharacter, not `\`, `.`, `(`, and not `/` (which the
route compiler always inserts escaped).  A template segment of plain
characters is embedded in the pattern as exactly itself. -/
def plainChar (c : Char) : Bool :=
  !(c ∈ ['/', '\\', '.', '(', ')', '[', ']', '\x7b', '\x7d',
         '*', '+', '?', '|', '^', '$'])

/-- State of the pattern-body parser: scanning normally, after a `\\`,
inside the fixed group text (with the characters still expected), just after
a completed group (where only `\\/` or the end may follow — the only
position the route compiler ever puts a group, and the discipline that makes
greedy matching determinate), or after the `\\` of that following `\\/`. -/
inductive ParseState : Type where
  | normal
  | esc
  | grp (remaining : Str)
  | afterGroup
  | escAfterGroup
deriving DecidableEq

/-- One-character-at-a-time parser for the body of a compiled pattern
(anchors stripped), covering the RE2 fragment the route compiler's patterns
can use: `\\` followed by an ASCII non-alphanumeric character is that literal
character (Go's rule; `\\` followed by anything else is an error or an
unmodelled escape class), `.` is the any-character metacharacter, and the
exact group `([^\\/]+)` is accepted where RE2's greedy matching is
determinate — before `\\/` or at the very end.  `none` means the pattern is
outside the modelled fragment: invalid (where `regexp.MustCompile` panics at
registration time) or using unmodelled constructs. -/
def parseLoop : ParseState → Str → Option (List ReItem)
  | .normal, [] => some []
  | .normal, c :: rest =>
    if c = '\\' then parseLoop .esc rest
    else if c = '.' then (parseLoop .normal rest).map (fun items => .dot :: items)
    else if c = '(' then parseLoop (.grp groupTail) rest
    else if c ∈ reMetachars then none
    else (parseLoop .normal rest).map (fun items => .ch c :: items)
  | .esc, [] => none
  | .esc, d :: rest =>
    if d.isAlphanum ∨ 128 ≤ d.toNat then none
    else (parseLoop .normal rest).map (fun items => .ch d :: items)
  | .grp [], _ => none
  | .grp (_ :: _), [] => none
  | .grp (e :: es), c :: rest =>
    if c = e then
      match es with
      | [] => (parseLoop .afterGroup rest).map (fun items => .group :: items)
      | _ :: _ => parseLoop (.grp es) rest
    else none
  | .afterGroup, [] => some []
  | .afterGroup, c :: rest =>
    if c = '\\' then parseLoop .escAfterGroup rest else none
  | .escAfterGroup, [] => none
  | .escAfterGroup, c :: rest =>
    if c = '/' then (parseLoop .normal rest).map (fun items => .ch '/' :: items)
    else none

/-- Parse a whole pattern body. -/
def parseReItems (s : Str) : Option (List ReItem) :=
  parseLoop .normal s

/-- `regexp.MustCompile` for the full-anchored pattern `^...$` built by
`buildRegexpFor`: strip the anchors and parse the body. -/
def compileRegexp (pattern : Str) : Option (List ReItem) :=
  match pattern with
  | '^' :: rest =>
    match rest.getLast? with
    | some '$' => parseReItems rest.dropLast
    | _ => none
  | _ => none

/-- `regexp.MustCompile` for the mount matcher `` `^\` ++ mountPath ``: the
leading `^` anchors at text start only, so the compiled items are those of
`\` ++ mountPath and `MatchString` becomes a from-the-start match. -/
def compileMountRegexp (mountPath : Str) : Option (List ReItem) :=
  parseReItems ('\\' :: mountPath)

/-- Anchored matching with captures —
`Regex.FindAllStringSubmatch(path, -1)` for a pattern `^items$`: the whole
string must be consumed; the captures of the groups are returned in order.
In every item list `parseReItems` produces, a group is followed by `ch '/'`
or by the end, and since the group cannot match `/`, RE2's greedy
backtracking degenerates to the maximal munch used here. -/
def reFindSubmatch : List ReItem → Str → Option (List Str)
  | [], [] => some []
  | [], _ :: _ => none
  | .ch _ :: _, [] => none
  | .ch c :: items, x :: s =>
    if c = x then reFindSubmatch items s else none
  | .dot :: _, [] => none
  | .dot :: items, x :: s =>
    if x = '\n' then none else reFindSubmatch items s
  | .group :: _, [] => none
  | .group :: items, x :: s =>
    if x = '/' then none
    else
      (reFindSubmatch items (s.dropWhile (· ≠ '/'))).map
        (fun caps => (x :: s.takeWhile (· ≠ '/')) :: caps)

/-- `MatchString` for a `^`-anchored pattern with no end anchor: some prefix
of the string matches the items (same group discipline as above). -/
def reMatchesAtStart : List ReItem → Str → Bool
  | [], _ => true
  | .ch _ :: _, [] => false
  | .ch c :: items, x :: s => c == x && reMatchesAtStart items s
  | .dot :: _, [] => false
  | .dot :: items, x :: s => !(x == '\n') && reMatchesAtStart items s
  | .group :: _, [] => false
  | .group :: items, x :: s =>
    !(x == '/') && reMatchesAtStart items (s.dropWhile (· ≠ '/'))

/-- `strings.Join(items, `\/`)`. -/
def joinWithEscapedSlash : List Str → Str
  | [] => []
  | [t] => t
  | t :: rest => t ++ '\\' :: '/' :: joinWithEscapedSlash rest

/-- `buildRegexpFor`: split the template on `/`; a segment starting with `:`
contributes the group `([^\/]+)` to the pattern and its name (all leading
and trailing `:` trimmed) to `withParamNames`; any other segment is embedded
in the pattern as its raw text (the source applies no QuoteMeta).  The
result is the pattern string `"^" ++ items joined by "\/" ++ "$"` and the
parameter names. -/
def buildRegexpFor (path : Str) : Str × List Str :=
  let acc := (splitOnSlash path).foldl
    (fun acc part =>
      if hasColonMarker part then
        (acc.1 ++ [groupText], acc.2 ++ [trimColon part])
      else
        (acc.1 ++ [part], acc.2))
    ([], [])
  ('^' :: joinWithEscapedSlash acc.1 ++ ['$'], acc.2)

/-- Claim-side view of one template segment: a literal segment, or a
parameter remembering its name.  Used to state the specification's
segment-wise matching condition, which the theorems relate to the compiled
matcher for templates whose literal segments are plain. -/
inductive PathPiece : Type where
  | lit (s : Str)
  | param (name : Str)
deriving DecidableEq, Repr

/-- The claim-side acceptance of one segment: a literal piece accepts
exactly its own text, a parameter piece accepts any nonempty `/`-free
token. -/
def pieceAccepts : PathPiece → Str → Bool
  | .lit s, seg => s == seg
  | .param _, seg => !seg.isEmpty && seg.all (· ≠ '/')

/-- The claim-side matching condition over segment lists: equal counts and
every piece accepting its segment. -/
def regexMatchCond (pieces : List PathPiece) (segs : List Str) : Bool :=
  segs.length == pieces.length
    && (pieces.zip segs).all (fun pr => pieceAccepts pr.1 pr.2)

/-- The claim-side captures: the segments sitting at the parameter pieces. -/
def regexCaptures (pieces : List PathPiece) (segs : List Str) : List Str :=
  (pieces.zip segs).filterMap
    (fun pr => match pr.1 with | .param _ => some pr.2 | .lit _ => none)

/-- The claim-side segment-wise matcher; for templates whose literal
segments are plain it coincides with the compiled regexp matcher (theorem
`reFindSubmatch_itemsFor` below), and it is what claim C1 describes. -/
def regexFindCaptures (pieces : List PathPiece) (path : Str) : Option (List Str) :=
  let segs := splitOnSlash path
  if regexMatchCond pieces segs then
    some (regexCaptures pieces segs)
  else
    none

/-- `requestHandler`: a registered route entry.  The `Regex` field holds the
result of compiling the pattern string in the modelled fragment (`none` =
outside the fragment; such a route either made Go panic at registration or
uses regexp features the model leaves uninterpreted — no theorem concerns
that case). -/
structure RequestHandler (H : Type) : Type where
  Path : Str
  ParamNames : List Str
  Regex : Option (List ReItem)
  Tokenized : Bool
  Handlers : List H
deriving DecidableEq

/-- `requestHandler.matches`: plain string comparison for token-free routes,
otherwise regexp matching; on a regexp match the parameter map is built by
Go map assignments `withParams[paramName] = matches[0][i+1]` in order of
`ParamNames`, so a repeated name keeps its last capture. -/
def RequestHandler.matches {H : Type} (reqHandler : RequestHandler H) (path : Str) :
    Bool × GoMap Str Str :=
  if !reqHandler.Tokenized then
    (reqHandler.Path == path, [])
  else
    match reqHandler.Regex with
    | none => (false, [])
    | some items =>
      match reFindSubmatch items path with
      | none => (false, [])
      | some caps =>
        (true,
         (reqHandler.ParamNames.zip caps).foldl
           (fun m nc => mapInsert m nc.1 nc.2) [])

/-- `middlewareRequestHandler`: a mount entry.  `Matcher` holds the compiled
regexp `` `^\` ++ mountPath `` in the modelled fragment (`none` = outside the
fragment; Go either panicked at `Mount` time on an invalid pattern or the
pattern uses unmodelled features — no theorem concerns that case). -/
structure MiddlewareRequestHandler (H : Type) : Type where
  MountPath : Str
  Handle : H
  Matcher : Option (List ReItem)
deriving DecidableEq

/-- `middlewareRequestHandler.shouldMount`: `Matcher.MatchString(path)` —
only the first character of the mount path is escaped, the rest is raw
regexp, and there is no end anchor. -/
def MiddlewareRequestHandler.shouldMount {H : Type}
    (mReqHandler : MiddlewareRequestHandler H) (path : Str) : Bool :=
  match mReqHandler.Matcher with
  | none => false
  | some items => reMatchesAtStart items path

/-- The error responder held by a router or request context: the package's
`defaultErrorHandler` (which calls `http.Error`, writing the message verbatim
with the given status code) or a user-supplied callable. -/
inductive ErrorResponder (R : Type) : Type where
  | default
  | custom (r : R)
deriving DecidableEq

/-- An observable side effect of one step of the handler chain. -/
inductive Event (H R : Type) : Type where
  /-- `Next` invoked the registered handler `h`. -/
  | invoked (h : H)
  /-- `Next` ran the defensive no-op sentinel substituted past the list end. -/
  | invokedNoop
  /-- The default error responder ran `http.Error`: the message is written
  verbatim with the given status code. -/
  | wrote (msg : Str) (code : Int)
  /-- A custom error responder was called with the message and code. -/
  | customResponse (r : R) (msg : Str) (code : Int)
  /-- A `nil` function value was called: a Go runtime panic. -/
  | nilCall
deriving DecidableEq

/-- `RequestContext`: the per-request state.  `errorHandler = none` models a
`nil` function value; `store = none` models the lazily created `nil` map. -/
structure RequestContext (H R K V : Type) : Type where
  Params : GoMap Str Str
  inError : Bool
  handlers : List H
  currentHandler : Nat
  errorHandler : Option (ErrorResponder R)
  store : Option (GoMap K (Option V))
deriving DecidableEq

/-- `RequestContext.Next`: return at once when `inError` is set; otherwise
select the handler at the cursor (substituting a no-op sentinel past the list
end), advance the cursor, then invoke the selection.  The returned events
record what was invoked. -/
def RequestContext.next {H R K V : Type} (cntxt : RequestContext H R K V) :
    RequestContext H R K V × List (Event H R) :=
  if cntxt.inError then
    (cntxt, [])
  else if hl : cntxt.handlers.length < cntxt.currentHandler + 1 then
    ({ cntxt with currentHandler := cntxt.currentHandler + 1 }, [.invokedNoop])
  else
    ({ cntxt with currentHandler := cntxt.currentHandler + 1 },
     [.invoked (cntxt.handlers.get ⟨cntxt.currentHandler, by omega⟩)])

/-- `RequestContext.Error`: set the abort flag, then call `cntxt.errorHandler`
with the message and code.  A `nil` errorHandler makes that call a runtime
panic (there is no nil check in the source). -/
def RequestContext.error {H R K V : Type} (cntxt : RequestContext H R K V)
    (err : Str) (code : Int) : RequestContext H R K V × List (Event H R) :=
  let cntxt' := { cntxt with inError := true }
  match cntxt.errorHandler with
  | none => (cntxt', [.nilCall])
  | some .default => (cntxt', [.wrote err code])
  | some (.custom r) => (cntxt', [.customResponse r err code])

/-- `makeStoreIfNotExist`: replace a `nil` store by a fresh empty map. -/
def RequestContext.makeStoreIfNotExist {H R K V : Type}
    (cntxt : RequestContext H R K V) : RequestContext H R K V :=
  match cntxt.store with
  | none => { cntxt with store := some [] }
  | some _ => cntxt

/-- `RequestContext.Set`: store the value only when the Go map read
`cntxt.store[key]` yields `nil` — which is the case both when the key is
absent and when it is bound to the `nil` interface value. -/
def RequestContext.set {H R K V : Type} [DecidableEq K]
    (cntxt : RequestContext H R K V) (key : K) (val : Option V) :
    RequestContext H R K V × Bool :=
  let cntxt := cntxt.makeStoreIfNotExist
  let st := cntxt.store.getD []
  if ((mapGet st key).getD none).isSome then
    (cntxt, false)
  else
    ({ cntxt with store := some (mapInsert st key val) }, true)

/-- `RequestContext.ForceSet`: always overwrite. -/
def RequestContext.forceSet {H R K V : Type} [DecidableEq K]
    (cntxt : RequestContext H R K V) (key : K) (val : Option V) :
    RequestContext H R K V :=
  let cntxt := cntxt.makeStoreIfNotExist
  let st := cntxt.store.getD []
  { cntxt with store := some (mapInsert st key val) }

/-- `RequestContext.Get`: the comma-ok read `val, ok := cntxt.store[key]`. -/
def RequestContext.get {H R K V : Type} [DecidableEq K]
    (cntxt : RequestContext H R K V) (key : K) :
    RequestContext H R K V × Option V × Bool :=
  let cntxt := cntxt.makeStoreIfNotExist
  let st := cntxt.store.getD []
  match mapGet st key with
  | some v => (cntxt, v, true)
  | none => (cntxt, none, false)

/-- `RequestContext.Delete`. -/
def RequestContext.delete {H R K V : Type} [DecidableEq K]
    (cntxt : RequestContext H R K V) (key : K) : RequestContext H R K V :=
  let cntxt := cntxt.makeStoreIfNotExist
  let st := cntxt.store.getD []
  { cntxt with store := some (mapDelete st key) }

/-- One call a handler can make on the context while the chain runs. -/
inductive ContextOp : Type where
  | next
  | fail (err : Str) (code : Int)
deriving DecidableEq

/-- Run a sequence of `Next` / `Error` calls on a context, collecting the
events in order. -/
def runOps {H R K V : Type} (cntxt : RequestContext H R K V) :
    List ContextOp → RequestContext H R K V × List (Event H R)
  | [] => (cntxt, [])
  | op :: ops =>
    let step := match op with
      | .next => cntxt.next
      | .fail err code => cntxt.error err code
    let rest := runOps step.1 ops
    (rest.1, step.2 ++ rest.2)

/-- Iterate `Next` alone `n` times. -/
def nextN {H R K V : Type} (cntxt : RequestContext H R K V) :
    Nat → RequestContext H R K V × List (Event H R)
  | 0 => (cntxt, [])
  | n + 1 =>
    let step := cntxt.next
    let rest := nextN step.1 n
    (rest.1, step.2 ++ rest.2)

/-- `Router`: the method buckets, the mount entries, and the two pluggable
responders.  `ErrorHandler = none` models a `nil` function value. -/
structure Router (H R : Type) : Type where
  routes : GoMap Str (List (RequestHandler H))
  middleware : List (MiddlewareRequestHandler H)
  NotFoundHandler : Option H
  ErrorHandler : Option (ErrorResponder R)
deriving DecidableEq

/-- `NewRouter`: empty buckets for the seven methods, no middleware, and the
error handler initialised to `defaultErrorHandler` ("Ensure we have an error
handler set"). -/
def NewRouter (H R : Type) : Router H R :=
  { routes :=
      [("GET".toList, []), ("POST".toList, []), ("PUT".toList, []),
       ("DELETE".toList, []), ("PATCH".toList, []), ("OPTIONS".toList, []),
       ("HEAD".toList, [])]
    middleware := []
    NotFoundHandler := none
    ErrorHandler := some .default }

/-- `Router.middlewareToMount`: the handlers of the mount entries whose
`shouldMount` accepts the path, in mount-registration order. -/
def Router.middlewareToMount {H R : Type} (router : Router H R) (path : Str) :
    List H :=
  router.middleware.filterMap
    (fun mReqHandler =>
      if mReqHandler.shouldMount path then some mReqHandler.Handle else none)

/-- `Router.makeRequestHandler`: resolve the currently mounted middleware for
the template, prepend it to the supplied handlers, and compile the template. -/
def Router.makeRequestHandler {H R : Type} (router : Router H R) (path : Str)
    (handlers : List H) : RequestHandler H :=
  let middleware := router.middlewareToMount path
  let handlers := middleware ++ handlers
  let compiled := buildRegexpFor path
  { Path := path
    ParamNames := compiled.2
    Regex := compileRegexp compiled.1
    Tokenized := compiled.2.length != 0
    Handlers := handlers }

/-- `Router.registerRequestHandler`: append the new entry to the method's
bucket (a read of a missing method key yields the `nil` slice). -/
def Router.registerRequestHandler {H R : Type} (router : Router H R)
    (method : Str) (path : Str) (handlers : List H) : Router H R :=
  let reqHandler := router.makeRequestHandler path handlers
  { router with
      routes := mapInsert router.routes method
        ((mapGet router.routes method).getD [] ++ [reqHandler]) }

/-- `Router.Get`, the registration wrapper for the GET bucket; the other six
method wrappers delegate identically. -/
def Router.getRoute {H R : Type} (router : Router H R) (path : Str)
    (handlers : List H) : Router H R :=
  router.registerRequestHandler "GET".toList path handlers

/-- `Router.Mount`: append a mount entry. -/
def Router.mount {H R : Type} (router : Router H R) (mountPath : Str)
    (handler : H) : Router H R :=
  { router with
      middleware := router.middleware ++
        [{ MountPath := mountPath, Handle := handler,
           Matcher := compileMountRegexp mountPath }] }

/-- The scan loop of `Router.ServeHTTP`: first registered entry whose pattern
matches the path wins, and the loop breaks there. -/
def serveScan {H : Type} (entries : List (RequestHandler H)) (path : Str) :
    Option (RequestHandler H × GoMap Str Str) :=
  match entries with
  | [] => none
  | reqHandler :: rest =>
    let m := reqHandler.matches path
    if m.1 then some (reqHandler, m.2) else serveScan rest path

/-- `Router.ServeHTTP`, up to the point where the fresh context dispatches its
first handler: scan the method's bucket in registration order; on the first
match build the `RequestContext` (params from the match, handlers from the
entry, error handler from the router) whose `Next` then drives the chain;
`none` means no entry matched and the not-found responder runs instead. -/
def Router.serveHTTP {H R K V : Type} (router : Router H R)
    (method : Str) (path : Str) : Option (RequestContext H R K V) :=
  match serveScan ((mapGet router.routes method).getD []) path with
  | none => none
  | some (reqHandler, withParams) =>
    some
      { Params := withParams
        inError := false
        handlers := reqHandler.Handlers
        currentHandler := 0
        errorHandler := router.ErrorHandler
        store := none }

/-- The parameter map of a match is the fold of Go map assignments over the
name/capture pairs; `insertAll` names that fold. -/
def insertAll {κ ν : Type} [DecidableEq κ] (m : GoMap κ ν) (l : List (κ × ν)) :
    GoMap κ ν :=
  l.foldl (fun m nc => mapInsert m nc.1 nc.2) m

/-- The claim-side matching condition, in the spec's words: same number of
`/`-delimited segments as the template; every literal segment of the candidate
equal to the template's segment at the same position; every
parameter-position segment nonempty and free of `/`. -/
def specMatch (template path : Str) : Prop :=
  (splitOnSlash path).length = (splitOnSlash template).length ∧
  ∀ pr ∈ (splitOnSlash template).zip (splitOnSlash path),
    (hasColonMarker pr.1 = true → pr.2 ≠ [] ∧ '/' ∉ pr.2) ∧
    (hasColonMarker pr.1 = false → pr.2 = pr.1)

instance specMatchDecidable (template path : Str) :
    Decidable (specMatch template path) :=
  inferInstanceAs
    (Decidable
      ((splitOnSlash path).length = (splitOnSlash template).length ∧
       ∀ pr ∈ (splitOnSlash template).zip (splitOnSlash path),
         (hasColonMarker pr.1 = true → pr.2 ≠ [] ∧ '/' ∉ pr.2) ∧
         (hasColonMarker pr.1 = false → pr.2 = pr.1)))

/-- The claim-side list of the candidate's segments at the template's
parameter positions, left to right. -/
def specParamSegments (template path : Str) : List Str :=
  ((splitOnSlash template).zip (splitOnSlash path)).filterMap
    (fun pr => if hasColonMarker pr.1 then some pr.2 else none)

/-- The piece a single template segment compiles to. -/
def pieceOf (part : Str) : PathPiece :=
  if hasColonMarker part then .param (trimColon part) else .lit part

/-- The parameter name a single template segment contributes, if any. -/
def nameOf? (part : Str) : Option Str :=
  if hasColonMarker part then some (trimColon part) else none

/-- An event that is a call of the configured error responder. -/
def Event.isResponderCall {H R : Type} : Event H R → Bool
  | .wrote _ _ => true
  | .customResponse _ _ _ => true
  | _ => false

/-- An event that is an invocation of a registered handler. -/
def Event.isHandlerRun {H R : Type} : Event H R → Bool
  | .invoked _ => true
  | _ => false

/-- An event that is any invocation performed by `Next` (a registered handler
or the defensive sentinel). -/
def Event.isInvocation {H R : Type} : Event H R → Bool
  | .invoked _ => true
  | .invokedNoop => true
  | _ => false

/-- An event that is the run of the defensive no-op sentinel. -/
def Event.isSentinelRun {H R : Type} : Event H R → Bool
  | .invokedNoop => true
  | _ => false

/-- The Go map read `cntxt.store[key]`, which yields `nil` both for an absent
key and for a key bound to `nil`. -/
def goStoreRead {H R K V : Type} [DecidableEq K]
    (cntxt : RequestContext H R K V) (key : K) : Option V :=
  (mapGet (cntxt.store.getD []) key).getD none

theorem mapGet_mapInsert_self {κ ν : Type} [DecidableEq κ]
    (m : GoMap κ ν) (k : κ) (v : ν) :
    mapGet (mapInsert m k v) k = some v := by
  induction m with
  | nil => simp [mapInsert, mapGet]
  | cons p rest ih =>
    obtain ⟨k', v'⟩ := p
    by_cases h : k' = k <;> simp [mapInsert, mapGet, h, ih]

theorem mapGet_mapInsert_ne {κ ν : Type} [DecidableEq κ]
    (m : GoMap κ ν) (k' k : κ) (v : ν) (h : k' ≠ k) :
    mapGet (mapInsert m k' v) k = mapGet m k := by
  induction m with
  | nil => simp [mapInsert, mapGet, h]
  | cons p rest ih =>
    obtain ⟨k'', v''⟩ := p
    by_cases h2 : k'' = k'
    · subst h2
      simp [mapInsert, mapGet, h]
    · simp [mapInsert, mapGet, h2, ih]

theorem insertAll_append {κ ν : Type} [DecidableEq κ]
    (m : GoMap κ ν) (l1 l2 : List (κ × ν)) :
    insertAll m (l1 ++ l2) = insertAll (insertAll m l1) l2 := by
  simp [insertAll, List.foldl_append]

theorem mapGet_insertAll_of_not_mem {κ ν : Type} [DecidableEq κ]
    (l : List (κ × ν)) (m : GoMap κ ν) (k : κ) (h : k ∉ l.map Prod.fst) :
    mapGet (insertAll m l) k = mapGet m k := by
  induction l generalizing m with
  | nil => simp [insertAll]
  | cons p rest ih =>
    simp only [List.map_cons, List.mem_cons] at h
    push_neg at h
    have step : insertAll m (p :: rest) = insertAll (mapInsert m p.1 p.2) rest := rfl
    rw [step, ih _ h.2, mapGet_mapInsert_ne _ _ _ _ (fun e => h.1 e.symm)]

theorem mapGet_insertAll_middle {κ ν : Type} [DecidableEq κ]
    (m : GoMap κ ν) (l1 l2 : List (κ × ν)) (k : κ) (v : ν)
    (hnot : k ∉ l2.map Prod.fst) :
    mapGet (insertAll m (l1 ++ (k, v) :: l2)) k = some v := by
  rw [insertAll_append]
  have step : insertAll (insertAll m l1) ((k, v) :: l2)
      = insertAll (mapInsert (insertAll m l1) k v) l2 := rfl
  rw [step, mapGet_insertAll_of_not_mem _ _ _ hnot, mapGet_mapInsert_self]

theorem mapGet_insertAll_last {κ ν : Type} [DecidableEq κ]
    (m : GoMap κ ν) (l : List (κ × ν)) (i : Nat) (hi : i < l.length)
    (hlast : ∀ k (hk : k < l.length), i < k →
      (l.get ⟨k, hk⟩).1 ≠ (l.get ⟨i, hi⟩).1) :
    mapGet (insertAll m l) (l.get ⟨i, hi⟩).1 = some (l.get ⟨i, hi⟩).2 := by
  have hdecomp : l = l.take i ++ l.get ⟨i, hi⟩ :: l.drop (i + 1) := by
    conv_lhs => rw [← List.take_append_drop i l]
    congr 1
    rw [List.drop_eq_getElem_cons hi]
    rfl
  have hnot : (l.get ⟨i, hi⟩).1 ∉ (l.drop (i + 1)).map Prod.fst := by
    intro hmem
    obtain ⟨p, hp, hfst⟩ := List.mem_map.mp hmem
    obtain ⟨j, hj, rfl⟩ := List.mem_iff_getElem.mp hp
    rw [List.getElem_drop] at hfst
    have hjlen : i + 1 + j < l.length := by
      have := hj
      rw [List.length_drop] at this
      omega
    exact hlast (i + 1 + j) hjlen (by omega) (by simpa using hfst)
  have h1 : insertAll m l
      = insertAll m (l.take i ++ l.get ⟨i, hi⟩ :: l.drop (i + 1)) :=
    congrArg (insertAll m) hdecomp
  rw [h1]
  have h2 : l.get ⟨i, hi⟩ = ((l.get ⟨i, hi⟩).1, (l.get ⟨i, hi⟩).2) := rfl
  rw [h2]
  exact mapGet_insertAll_middle m _ _ _ _ hnot

/-- The pattern text one template segment contributes. -/
def segText (part : Str) : Str :=
  if hasColonMarker part then groupText else part

theorem buildRegexpFor_foldl (l : List Str) (a : List Str) (b : List Str) :
    l.foldl
      (fun acc part =>
        if hasColonMarker part then
          (acc.1 ++ [groupText], acc.2 ++ [trimColon part])
        else
          (acc.1 ++ [part], acc.2))
      (a, b)
      = (a ++ l.map segText, b ++ l.filterMap nameOf?) := by
  induction l generalizing a b with
  | nil => simp
  | cons part rest ih =>
    by_cases h : hasColonMarker part <;>
      simp [h, ih, segText, nameOf?]

theorem buildRegexpFor_eq (path : Str) :
    buildRegexpFor path
      = ('^' :: joinWithEscapedSlash ((splitOnSlash path).map segText) ++ ['$'],
         (splitOnSlash path).filterMap nameOf?) := by
  simpa [buildRegexpFor] using
    congrArg
      (fun acc : List Str × List Str =>
        (('^' :: joinWithEscapedSlash acc.1 ++ ['$'] : Str), acc.2))
      (buildRegexpFor_foldl (splitOnSlash path) [] [])

theorem all_comp_map {α β : Type} (l : List α) (f : α → β) (p : β → Bool) :
    (l.map f).all p = l.all (p ∘ f) := by
  induction l with
  | nil => rfl
  | cons x xs ih => simp [ih, Function.comp]

theorem pieceAccepts_pieceOf (part seg : Str) :
    pieceAccepts (pieceOf part) seg = true
      ↔ ((hasColonMarker part = true → seg ≠ [] ∧ '/' ∉ seg)
          ∧ (hasColonMarker part = false → seg = part)) := by
  cases hc : hasColonMarker part
  · simp [pieceOf, hc, pieceAccepts]
    exact eq_comm
  · simp [pieceOf, hc, pieceAccepts, List.all_eq_true, List.isEmpty_iff]
    intro _
    constructor
    · intro h hmem
      exact h _ hmem rfl
    · intro h c hmem hceq
      exact h (hceq ▸ hmem)

theorem regexMatchCond_iff_specMatch (template path : Str) :
    regexMatchCond ((splitOnSlash template).map pieceOf) (splitOnSlash path) = true
      ↔ specMatch template path := by
  rw [regexMatchCond, specMatch, Bool.and_eq_true, beq_iff_eq,
    List.length_map, List.zip_map_left, all_comp_map, List.all_eq_true]
  constructor
  · rintro ⟨hlen, hall⟩
    exact ⟨hlen, fun pr hpr => (pieceAccepts_pieceOf pr.1 pr.2).mp (hall pr hpr)⟩
  · rintro ⟨hlen, hall⟩
    exact ⟨hlen, fun pr hpr => (pieceAccepts_pieceOf pr.1 pr.2).mpr (hall pr hpr)⟩

theorem regexCaptures_eq_specParamSegments (template path : Str) :
    regexCaptures ((splitOnSlash template).map pieceOf) (splitOnSlash path)
      = specParamSegments template path := by
  rw [regexCaptures, specParamSegments, List.zip_map_left, List.filterMap_map]
  congr 1
  funext pr
  by_cases hc : hasColonMarker pr.1 <;> simp [Function.comp, Prod.map, pieceOf, hc]

theorem specParamSegments_length (template path : Str)
    (hlen : (splitOnSlash path).length = (splitOnSlash template).length) :
    (specParamSegments template path).length
      = ((splitOnSlash template).filterMap nameOf?).length := by
  rw [specParamSegments]
  generalize splitOnSlash template = tps at hlen ⊢
  generalize splitOnSlash path = sps at hlen ⊢
  induction tps generalizing sps with
  | nil => simp
  | cons t rest ih =>
    cases sps with
    | nil => simp at hlen
    | cons s srest =>
      simp only [List.length_cons, Nat.succ.injEq] at hlen
      by_cases hc : hasColonMarker t <;>
        simp [List.zip_cons_cons, nameOf?, hc, ih srest hlen]

theorem splitOnSlash_ne_nil (s : Str) : splitOnSlash s ≠ [] := by
  cases s with
  | nil => simp [splitOnSlash]
  | cons c rest =>
    by_cases h : c = '/'
    · simp [splitOnSlash, h]
    · simp only [splitOnSlash, h, if_false]
      cases splitOnSlash rest <;> simp

theorem splitOnSlash_cons_ne (c : Char) (t : Str) (hc : c ≠ '/')
    (s : Str) (ss : List Str) (h : splitOnSlash t = s :: ss) :
    splitOnSlash (c :: t) = (c :: s) :: ss := by
  show (if c = '/' then [] :: splitOnSlash t
        else match splitOnSlash t with
             | [] => [[c]]
             | s :: ss => (c :: s) :: ss) = (c :: s) :: ss
  rw [if_neg hc, h]

theorem splitOnSlash_no_slash (s : Str) (h : ∀ c ∈ s, c ≠ '/') :
    splitOnSlash s = [s] := by
  induction s with
  | nil => rfl
  | cons c rest ih =>
    have hc : c ≠ '/' := h c (by simp)
    have hrest : ∀ x ∈ rest, x ≠ '/' := fun x hx => h x (by simp [hx])
    exact splitOnSlash_cons_ne c rest hc rest [] (ih hrest)

theorem splitOnSlash_append_slash (p r : Str) (hp : ∀ c ∈ p, c ≠ '/') :
    splitOnSlash (p ++ '/' :: r) = p :: splitOnSlash r := by
  induction p with
  | nil =>
    show splitOnSlash ('/' :: r) = [] :: splitOnSlash r
    show (if '/' = '/' then [] :: splitOnSlash r
          else match splitOnSlash r with
               | [] => [['/']]
               | s :: ss => ('/' :: s) :: ss) = [] :: splitOnSlash r
    rw [if_pos rfl]
  | cons c p' ih =>
    have hc : c ≠ '/' := hp c (by simp)
    have hp' : ∀ x ∈ p', x ≠ '/' := fun x hx => hp x (by simp [hx])
    rw [List.cons_append]
    cases hsp : splitOnSlash r with
    | nil => exact absurd hsp (splitOnSlash_ne_nil r)
    | cons s2 ss2 =>
      have hrec : splitOnSlash (p' ++ '/' :: r) = p' :: s2 :: ss2 := by
        rw [ih hp', hsp]
      rw [splitOnSlash_cons_ne c _ hc _ _ hrec]

theorem path_split_cases (s : Str) :
    (∀ c ∈ s, c ≠ '/') ∨ ∃ a b, s = a ++ '/' :: b ∧ ∀ c ∈ a, c ≠ '/' := by
  induction s with
  | nil => exact Or.inl (by simp)
  | cons c rest ih =>
    by_cases hc : c = '/'
    · exact Or.inr ⟨[], rest, by simp [hc], by simp⟩
    · cases ih with
      | inl h =>
        refine Or.inl ?_
        intro x hx
        rcases List.mem_cons.mp hx with h1 | h2
        · exact h1 ▸ hc
        · exact h x h2
      | inr h =>
        obtain ⟨a, b, rfl, ha⟩ := h
        refine Or.inr ⟨c :: a, b, by simp, ?_⟩
        intro x hx
        rcases List.mem_cons.mp hx with h1 | h2
        · exact h1 ▸ hc
        · exact ha x h2

theorem slash_decomp_unique : ∀ (p a t b : Str),
    (∀ c ∈ p, c ≠ '/') → (∀ c ∈ a, c ≠ '/') →
    p ++ '/' :: t = a ++ '/' :: b → p = a ∧ t = b := by
  intro p
  induction p with
  | nil =>
    intro a t b _ ha heq
    cases a with
    | nil => simpa using heq
    | cons x a' =>
      simp only [List.nil_append, List.cons_append, List.cons.injEq] at heq
      exact absurd heq.1.symm (ha x (by simp))
  | cons c p' ih =>
    intro a t b hp ha heq
    cases a with
    | nil =>
      simp only [List.cons_append, List.nil_append, List.cons.injEq] at heq
      exact absurd heq.1 (hp c (by simp))
    | cons x a' =>
      simp only [List.cons_append, List.cons.injEq] at heq
      obtain ⟨h1, h2⟩ := heq
      have hrec := ih a' t b (fun y hy => hp y (by simp [hy]))
        (fun y hy => ha y (by simp [hy])) h2
      exact ⟨by rw [h1, hrec.1], hrec.2⟩

theorem takeWhile_no_slash (s : Str) (h : ∀ c ∈ s, c ≠ '/') :
    s.takeWhile (· ≠ '/') = s ∧ s.dropWhile (· ≠ '/') = [] := by
  induction s with
  | nil => exact ⟨rfl, rfl⟩
  | cons c rest ih =>
    have hc : c ≠ '/' := h c (by simp)
    have hr := ih (fun x hx => h x (List.mem_cons_of_mem c hx))
    have hdec : (fun x => decide (x ≠ '/')) c = true := by simpa using hc
    refine ⟨?_, ?_⟩
    · rw [List.takeWhile_cons, if_pos hdec, hr.1]
    · rw [List.dropWhile_cons, if_pos hdec, hr.2]

theorem takeWhile_append_slash (p r : Str) (hp : ∀ c ∈ p, c ≠ '/') :
    (p ++ '/' :: r).takeWhile (· ≠ '/') = p
    ∧ (p ++ '/' :: r).dropWhile (· ≠ '/') = '/' :: r := by
  induction p with
  | nil =>
    rw [List.nil_append]
    refine ⟨?_, ?_⟩
    · rw [List.takeWhile_cons, if_neg (by simp)]
    · rw [List.dropWhile_cons, if_neg (by simp)]
  | cons c p' ih =>
    have hc : c ≠ '/' := hp c (by simp)
    have h' := ih (fun x hx => hp x (List.mem_cons_of_mem c hx))
    have hdec : (fun x => decide (x ≠ '/')) c = true := by simpa using hc
    rw [List.cons_append]
    refine ⟨?_, ?_⟩
    · rw [List.takeWhile_cons, if_pos hdec, h'.1]
    · rw [List.dropWhile_cons, if_pos hdec, h'.2]

theorem plainChar_spec (c : Char) (h : plainChar c = true) :
    c ≠ '/' ∧ c ≠ '\\' ∧ c ≠ '.' ∧ c ≠ '(' ∧ c ∉ reMetachars := by
  simp only [plainChar, Bool.not_eq_true', decide_eq_false_iff_not,
    List.mem_cons, List.not_mem_nil, or_false] at h
  push_neg at h
  simp only [reMetachars, List.mem_cons, List.not_mem_nil, or_false]
  tauto

theorem reFindSubmatch_ch_append (seg : Str) (items : List ReItem) :
    ∀ s : Str, reFindSubmatch (seg.map .ch ++ items) s
      = if seg.isPrefixOf s then reFindSubmatch items (s.drop seg.length)
        else none := by
  induction seg with
  | nil => intro s; simp [List.isPrefixOf]
  | cons c cs ih =>
    intro s
    cases s with
    | nil => simp [reFindSubmatch, List.isPrefixOf]
    | cons x s' =>
      simp only [List.map_cons, List.cons_append, reFindSubmatch,
        List.isPrefixOf, List.length_cons, List.drop_succ_cons]
      by_cases hcx : c = x
      · simp [hcx, ih s']
      · simp [hcx, Bool.and_eq_true, beq_iff_eq]

theorem reMatchesAtStart_ch (l : Str) : ∀ s : Str,
    reMatchesAtStart (l.map .ch) s = l.isPrefixOf s := by
  induction l with
  | nil => intro s; simp [reMatchesAtStart, List.isPrefixOf]
  | cons c cs ih =>
    intro s
    cases s with
    | nil => simp [reMatchesAtStart, List.isPrefixOf]
    | cons x s' => simp [reMatchesAtStart, List.isPrefixOf, ih s']

theorem parseReItems_nil : parseReItems [] = some [] := rfl

theorem parseReItems_cons (c : Char) (rest : Str) :
    parseReItems (c :: rest)
      = (if c = '\\' then parseLoop .esc rest
        else if c = '.' then
          (parseReItems rest).map (fun items => .dot :: items)
        else if c = '(' then parseLoop (.grp groupTail) rest
        else if c ∈ reMetachars then none
        else (parseReItems rest).map (fun items => .ch c :: items)) := rfl

theorem parseReItems_plain_cons (c : Char) (hc : plainChar c = true)
    (rest : Str) :
    parseReItems (c :: rest)
      = (parseReItems rest).map (fun items => .ch c :: items) := by
  obtain ⟨_, h2, h3, h4, h5⟩ := plainChar_spec c hc
  rw [parseReItems_cons, if_neg h2, if_neg h3, if_neg h4, if_neg h5]

theorem parseReItems_escSlash (rest : Str) :
    parseReItems ('\\' :: '/' :: rest)
      = (parseReItems rest).map (fun items => .ch '/' :: items) := by
  show parseLoop .esc ('/' :: rest) = _
  show (if ('/'.isAlphanum ∨ 128 ≤ '/'.toNat) then none
        else (parseLoop .normal rest).map (fun items => .ch '/' :: items)) = _
  rw [if_neg (by decide)]
  rfl

theorem parseReItems_group (rest : Str)
    (hfollow : rest = [] ∨ escSlash.isPrefixOf rest = true) :
    parseReItems (groupText ++ rest)
      = (parseReItems rest).map (fun items => .group :: items) := by
  have hgrp : parseReItems (groupText ++ rest)
      = (parseLoop .afterGroup rest).map (fun items => .group :: items) := rfl
  rw [hgrp]
  rcases hfollow with hnil | hesc
  · subst hnil
    rfl
  · rcases rest with _ | ⟨c1, rest1⟩
    · rfl
    · rcases rest1 with _ | ⟨c2, rest2⟩
      · simp [escSlash, List.isPrefixOf] at hesc
      · simp only [escSlash, List.isPrefixOf, Bool.and_eq_true, beq_iff_eq]
          at hesc
        obtain ⟨hc1, hc2, -⟩ := hesc
        subst hc1
        subst hc2
        show ((parseLoop .escAfterGroup ('/' :: rest2)).map
            (fun items => .group :: items)) = _
        show (((if '/' = '/' then
            (parseLoop .normal rest2).map (fun items => .ch '/' :: items)
          else none)).map (fun items => .group :: items)) = _
        rw [if_pos rfl, parseReItems_cons, if_pos rfl]
        show ((parseLoop .normal rest2).map
              (fun items => .ch '/' :: items)).map
            (fun items => .group :: items)
          = ((if ('/'.isAlphanum ∨ 128 ≤ '/'.toNat) then none
              else (parseLoop .normal rest2).map
                (fun items => .ch '/' :: items)).map
            (fun items => .group :: items))
        rw [if_neg (by decide)]

theorem parseReItems_plain_append : ∀ (part : Str),
    part.all plainChar = true → ∀ rest : Str,
    parseReItems (part ++ rest)
      = (parseReItems rest).map (fun items => part.map .ch ++ items) := by
  intro part
  induction part with
  | nil =>
    intro _ rest
    rw [List.nil_append]
    cases h : parseReItems rest <;> simp
  | cons c cs ih =>
    intro hplain rest
    rw [List.all_cons, Bool.and_eq_true] at hplain
    obtain ⟨hc, hcs⟩ := hplain
    rw [List.cons_append, parseReItems_plain_cons c hc, ih hcs rest]
    cases h : parseReItems rest <;> simp

/-- The compiled items one template segment contributes. -/
def partItems (part : Str) : List ReItem :=
  if hasColonMarker part then [.group] else part.map .ch

/-- The compiled items of a whole template: segment items joined by the
(escaped) slash. -/
def itemsFor : List Str → List ReItem
  | [] => []
  | [part] => partItems part
  | part :: rest => partItems part ++ .ch '/' :: itemsFor rest

theorem parseReItems_join : ∀ (parts : List Str), parts ≠ [] →
    (∀ part ∈ parts, hasColonMarker part = true ∨ part.all plainChar = true) →
    parseReItems (joinWithEscapedSlash (parts.map segText))
      = some (itemsFor parts) := by
  intro parts
  induction parts with
  | nil => intro h; exact absurd rfl h
  | cons p rest ih =>
    intro _ hplain
    have hp : hasColonMarker p = true ∨ p.all plainChar = true :=
      hplain p (by simp)
    cases rest with
    | nil =>
      cases hcol : hasColonMarker p with
      | false =>
        have hpl : p.all plainChar = true := by
          rcases hp with h | h
          · rw [hcol] at h; cases h
          · exact h
        have h0 := parseReItems_plain_append p hpl []
        rw [parseReItems_nil] at h0
        simp only [joinWithEscapedSlash, List.map_cons, List.map_nil,
          segText, hcol, Bool.false_eq_true, if_false, itemsFor, partItems]
        simpa using h0
      | true =>
        have h0 := parseReItems_group [] (Or.inl rfl)
        rw [parseReItems_nil] at h0
        simp only [joinWithEscapedSlash, List.map_cons, List.map_nil,
          segText, hcol, if_true, itemsFor, partItems]
        simpa using h0
    | cons q rest' =>
      have hrest : ∀ part ∈ q :: rest',
          hasColonMarker part = true ∨ part.all plainChar = true :=
        fun part hm => hplain part (by simp [hm])
      have hj := ih (by simp) hrest
      have hesc : escSlash.isPrefixOf
          ('\\' :: '/' :: joinWithEscapedSlash ((q :: rest').map segText))
            = true := by
        simp [escSlash, List.isPrefixOf]
      have hjoin : joinWithEscapedSlash ((p :: q :: rest').map segText)
          = segText p ++ '\\' :: '/' ::
              joinWithEscapedSlash ((q :: rest').map segText) := by
        simp [joinWithEscapedSlash]
      cases hcol : hasColonMarker p with
      | false =>
        have hpl : p.all plainChar = true := by
          rcases hp with h | h
          · rw [hcol] at h; cases h
          · exact h
        rw [hjoin]
        simp only [segText, hcol, Bool.false_eq_true, if_false]
        rw [parseReItems_plain_append p hpl, parseReItems_escSlash, hj]
        simp [itemsFor, partItems, hcol]
      | true =>
        rw [hjoin]
        simp only [segText, hcol, if_true]
        rw [parseReItems_group _ (Or.inr hesc), parseReItems_escSlash, hj]
        simp [itemsFor, partItems, hcol]

theorem compileRegexp_caret (rest : Str) :
    compileRegexp ('^' :: rest)
      = (match rest.getLast? with
         | some '$' => parseReItems rest.dropLast
         | _ => none) := rfl

theorem compileRegexp_anchored (body : Str) :
    compileRegexp ('^' :: body ++ ['$']) = parseReItems body := by
  have h1 : ('^' :: body ++ ['$'] : Str) = '^' :: (body ++ ['$']) := rfl
  rw [h1, compileRegexp_caret, List.getLast?_concat]
  show parseReItems (body ++ ['$']).dropLast = parseReItems body
  rw [List.dropLast_concat]

theorem compileRegexp_buildRegexpFor (template : Str)
    (hplain : ∀ part ∈ splitOnSlash template,
      hasColonMarker part = true ∨ part.all plainChar = true) :
    compileRegexp (buildRegexpFor template).1
      = some (itemsFor (splitOnSlash template)) := by
  rw [buildRegexpFor_eq]
  show compileRegexp
      ('^' :: joinWithEscapedSlash ((splitOnSlash template).map segText)
        ++ ['$']) = _
  rw [compileRegexp_anchored]
  exact parseReItems_join _ (splitOnSlash_ne_nil template) hplain

/-- The claim-side matcher, expressed segment list against piece list as a
recursion (the shape the equivalence proof follows). -/
def segFind : List PathPiece → List Str → Option (List Str)
  | [], [] => some []
  | [], _ :: _ => none
  | _ :: _, [] => none
  | .lit p :: pieces, seg :: segs =>
    if seg = p then segFind pieces segs else none
  | .param _ :: pieces, seg :: segs =>
    if seg.isEmpty then none
    else (segFind pieces segs).map (fun caps => seg :: caps)

theorem segFind_eq_regexFind : ∀ (pieces : List PathPiece) (segs : List Str),
    (∀ seg ∈ segs, ∀ c ∈ seg, c ≠ '/') →
    segFind pieces segs
      = if regexMatchCond pieces segs then some (regexCaptures pieces segs)
        else none := by
  intro pieces
  induction pieces with
  | nil =>
    intro segs _
    cases segs with
    | nil => simp [segFind, regexMatchCond, regexCaptures]
    | cons s ss => simp [segFind, regexMatchCond]
  | cons pc pieces ih =>
    intro segs hsl
    cases segs with
    | nil => simp [segFind, regexMatchCond]
    | cons s ss =>
      have hss : ∀ seg ∈ ss, ∀ c ∈ seg, c ≠ '/' :=
        fun seg h => hsl seg (by simp [h])
      have hlen : ((s :: ss).length == (pc :: pieces).length)
          = (ss.length == pieces.length) := by
        rw [Bool.eq_iff_iff]
        simp only [beq_iff_eq, List.length_cons]
        omega
      have hcond : regexMatchCond (pc :: pieces) (s :: ss)
          = (pieceAccepts pc s && regexMatchCond pieces ss) := by
        rw [regexMatchCond, regexMatchCond, hlen, List.zip_cons_cons,
          List.all_cons, Bool.and_left_comm]
      cases pc with
      | lit p =>
        by_cases hsp : s = p
        · subst hsp
          have hacc : pieceAccepts (PathPiece.lit s) s = true := by
            simp [pieceAccepts]
          have hcap : regexCaptures (PathPiece.lit s :: pieces) (s :: ss)
              = regexCaptures pieces ss := by
            simp [regexCaptures, List.zip_cons_cons]
          rw [show segFind (PathPiece.lit s :: pieces) (s :: ss)
              = segFind pieces ss from by simp [segFind]]
          rw [ih ss hss, hcond, hacc, Bool.true_and, hcap]
        · have hacc : pieceAccepts (PathPiece.lit p) s = false := by
            simp [pieceAccepts]
            exact fun h => hsp h.symm
          rw [show segFind (PathPiece.lit p :: pieces) (s :: ss) = none from by
            simp [segFind, hsp]]
          rw [hcond, hacc, Bool.false_and, if_neg (by simp)]
      | param n =>
        have hall : s.all (fun c => decide (c ≠ '/')) = true := by
          rw [List.all_eq_true]
          intro c hc
          simpa using hsl s (by simp) c hc
        by_cases hse : s = []
        · subst hse
          rw [show segFind (PathPiece.param n :: pieces) ([] :: ss) = none
              from by simp [segFind]]
          have hacc : pieceAccepts (PathPiece.param n) [] = false := by
            simp [pieceAccepts]
          rw [hcond, hacc, Bool.false_and, if_neg (by simp)]
        · have hacc : pieceAccepts (PathPiece.param n) s = true := by
            simp only [pieceAccepts, Bool.and_eq_true]
            exact ⟨by simpa [List.isEmpty_iff] using hse, hall⟩
          have hcap : regexCaptures (PathPiece.param n :: pieces) (s :: ss)
              = s :: regexCaptures pieces ss := by
            simp [regexCaptures, List.zip_cons_cons]
          have hni : s.isEmpty = false := by
            simpa [List.isEmpty_iff] using hse
          rw [show segFind (PathPiece.param n :: pieces) (s :: ss)
              = (segFind pieces ss).map (fun caps => s :: caps) from by
            simp [segFind, hni]]
          rw [ih ss hss, hcond, hacc, Bool.true_and, hcap]
          by_cases hc : regexMatchCond pieces ss = true
          · simp [hc]
          · simp [hc]

theorem splitOnSlash_cons_slash (t : Str) :
    splitOnSlash ('/' :: t) = [] :: splitOnSlash t := rfl

theorem plain_no_slash (p : Str) (h : p.all plainChar = true) :
    ∀ c ∈ p, c ≠ '/' := by
  intro c hcmem
  exact (plainChar_spec c (List.all_eq_true.mp h c hcmem)).1

theorem splitOnSlash_members : ∀ (s : Str),
    ∀ seg ∈ splitOnSlash s, ∀ c ∈ seg, c ≠ '/' := by
  intro s
  induction s with
  | nil =>
    intro seg hseg
    rw [show splitOnSlash [] = [[]] from rfl] at hseg
    rcases List.mem_cons.mp hseg with h | h
    · subst h
      intro c hc
      cases hc
    · cases h
  | cons c rest ih =>
    by_cases hc : c = '/'
    · subst hc
      intro seg hseg
      rw [splitOnSlash_cons_slash] at hseg
      rcases List.mem_cons.mp hseg with h | h
      · subst h
        intro x hx
        cases hx
      · exact ih seg h
    · cases hsp : splitOnSlash rest with
      | nil => exact absurd hsp (splitOnSlash_ne_nil rest)
      | cons s0 ss0 =>
        intro seg hseg
        rw [splitOnSlash_cons_ne c rest hc s0 ss0 hsp] at hseg
        rcases List.mem_cons.mp hseg with h | h
        · subst h
          intro x hx
          rcases List.mem_cons.mp hx with h1 | h2
          · exact h1 ▸ hc
          · exact ih s0 (by rw [hsp]; simp) x h2
        · exact ih seg (by rw [hsp]; simp [h])

theorem reFind_nil_nil : reFindSubmatch [] [] = some [] := rfl

theorem reFind_nil_cons (x : Char) (s : Str) :
    reFindSubmatch [] (x :: s) = none := rfl

theorem reFind_ch_nil (c : Char) (items : List ReItem) :
    reFindSubmatch (.ch c :: items) [] = none := rfl

theorem reFind_ch_cons (c : Char) (items : List ReItem) (x : Char) (s : Str) :
    reFindSubmatch (.ch c :: items) (x :: s)
      = if c = x then reFindSubmatch items s else none := rfl

theorem reFind_group_nil (items : List ReItem) :
    reFindSubmatch (.group :: items) [] = none := rfl

theorem reFind_group_cons (items : List ReItem) (x : Char) (s : Str) :
    reFindSubmatch (.group :: items) (x :: s)
      = if x = '/' then none
        else
          (reFindSubmatch items (s.dropWhile (· ≠ '/'))).map
            (fun caps => (x :: s.takeWhile (· ≠ '/')) :: caps) := rfl

theorem segFind_cons_nil (pc : PathPiece) (pieces : List PathPiece) :
    segFind (pc :: pieces) [] = none := by
  cases pc <;> rfl

theorem segFind_nil_cons (seg : Str) (segs : List Str) :
    segFind [] (seg :: segs) = none := rfl

theorem segFind_lit_cons (p : Str) (pieces : List PathPiece)
    (seg : Str) (segs : List Str) :
    segFind (.lit p :: pieces) (seg :: segs)
      = if seg = p then segFind pieces segs else none := rfl

theorem segFind_param_cons (n : Str) (pieces : List PathPiece)
    (seg : Str) (segs : List Str) :
    segFind (.param n :: pieces) (seg :: segs)
      = if seg.isEmpty then none
        else (segFind pieces segs).map (fun caps => seg :: caps) := rfl

theorem reFindSubmatch_itemsFor : ∀ (parts : List Str), parts ≠ [] →
    (∀ part ∈ parts, hasColonMarker part = true ∨ part.all plainChar = true) →
    ∀ path : Str,
    reFindSubmatch (itemsFor parts) path
      = segFind (parts.map pieceOf) (splitOnSlash path) := by
  intro parts
  induction parts with
  | nil => intro h; exact absurd rfl h
  | cons p rest ih =>
    intro _ hplain path
    have hp := hplain p (by simp)
    cases rest with
    | nil =>
      cases hcol : hasColonMarker p with
      | true =>
        have hitems : itemsFor [p] = [.group] := by
          simp [itemsFor, partItems, hcol]
        have hpiece : ([p].map pieceOf : List PathPiece)
            = [.param (trimColon p)] := by
          simp [pieceOf, hcol]
        rw [hitems, hpiece]
        cases path with
        | nil =>
          rw [show splitOnSlash [] = [[]] from rfl, reFind_group_nil,
            segFind_param_cons, if_pos (show ([] : Str).isEmpty = true from rfl)]
        | cons x s =>
          by_cases hx : x = '/'
          · subst hx
            rw [splitOnSlash_cons_slash, reFind_group_cons, if_pos rfl,
              segFind_param_cons,
              if_pos (show ([] : Str).isEmpty = true from rfl)]
          · rw [reFind_group_cons, if_neg hx]
            rcases path_split_cases s with hno | ⟨a, b, hab, hano⟩
            · have htw := takeWhile_no_slash s hno
              rw [htw.1, htw.2, reFind_nil_nil]
              have hpath : splitOnSlash (x :: s) = [x :: s] :=
                splitOnSlash_no_slash _ (by
                  intro cc hcc
                  rcases List.mem_cons.mp hcc with h1 | h2
                  · exact h1 ▸ hx
                  · exact hno cc h2)
              rw [hpath, segFind_param_cons, if_neg (by simp)]
              rfl
            · subst hab
              have htw := takeWhile_append_slash a b hano
              rw [htw.1, htw.2, reFind_nil_cons]
              have hxs : (x :: (a ++ '/' :: b) : Str) = (x :: a) ++ '/' :: b :=
                rfl
              rw [hxs, splitOnSlash_append_slash (x :: a) b (by
                intro cc hcc
                rcases List.mem_cons.mp hcc with h1 | h2
                · exact h1 ▸ hx
                · exact hano cc h2)]
              rw [segFind_param_cons, if_neg (by simp)]
              cases hsp : splitOnSlash b with
              | nil => exact absurd hsp (splitOnSlash_ne_nil b)
              | cons s0 ss0 => rw [segFind_nil_cons]
      | false =>
        have hpl : p.all plainChar = true := by
          rcases hp with h | h
          · rw [hcol] at h; cases h
          · exact h
        have hpno : ∀ c ∈ p, c ≠ '/' := plain_no_slash p hpl
        have hitems : itemsFor [p] = p.map .ch := by
          simp [itemsFor, partItems, hcol]
        have hpiece : ([p].map pieceOf : List PathPiece) = [.lit p] := by
          simp [pieceOf, hcol]
        rw [hitems, hpiece,
          show (p.map ReItem.ch : List ReItem) = p.map ReItem.ch ++ [] from
            (List.append_nil _).symm,
          reFindSubmatch_ch_append]
        by_cases hpp : path = p
        · subst hpp
          rw [if_pos (List.isPrefixOf_iff_prefix.mpr (List.prefix_refl _)),
            List.drop_length, reFind_nil_nil,
            splitOnSlash_no_slash path hpno, segFind_lit_cons, if_pos rfl]
          rfl
        · have hrhs : segFind [PathPiece.lit p] (splitOnSlash path) = none := by
            rcases path_split_cases path with hno | ⟨a, b, hab, hano⟩
            · rw [splitOnSlash_no_slash path hno, segFind_lit_cons, if_neg hpp]
            · subst hab
              rw [splitOnSlash_append_slash a b hano, segFind_lit_cons]
              by_cases hap : a = p
              · rw [if_pos hap]
                cases hsp : splitOnSlash b with
                | nil => exact absurd hsp (splitOnSlash_ne_nil b)
                | cons s0 ss0 => rw [segFind_nil_cons]
              · rw [if_neg hap]
          have hlhs : (if p.isPrefixOf path then
              reFindSubmatch [] (path.drop p.length) else none) = none := by
            by_cases hpre : p.isPrefixOf path = true
            · rw [if_pos hpre]
              obtain ⟨t, ht⟩ := List.isPrefixOf_iff_prefix.mp hpre
              cases t with
              | nil => exact absurd (by rw [← ht, List.append_nil]) hpp
              | cons y t' => rw [← ht, List.drop_left, reFind_nil_cons]
            · rw [if_neg hpre]
          exact hlhs.trans hrhs.symm
    | cons q rest' =>
      have ihq := ih (by simp) (fun part hm => hplain part (by simp [hm]))
      rw [show itemsFor (p :: q :: rest')
            = partItems p ++ .ch '/' :: itemsFor (q :: rest') from rfl,
        show ((p :: q :: rest').map pieceOf : List PathPiece)
            = pieceOf p :: (q :: rest').map pieceOf from rfl]
      cases hcol : hasColonMarker p with
      | true =>
        rw [show partItems p = [.group] from by simp [partItems, hcol],
          show pieceOf p = .param (trimColon p) from by simp [pieceOf, hcol],
          List.singleton_append]
        cases path with
        | nil =>
          rw [reFind_group_nil, show splitOnSlash [] = [[]] from rfl,
            segFind_param_cons, if_pos (show ([] : Str).isEmpty = true from rfl)]
        | cons x s =>
          by_cases hx : x = '/'
          · subst hx
            rw [reFind_group_cons, if_pos rfl, splitOnSlash_cons_slash,
              segFind_param_cons,
              if_pos (show ([] : Str).isEmpty = true from rfl)]
          · rw [reFind_group_cons, if_neg hx]
            rcases path_split_cases s with hno | ⟨a, b, hab, hano⟩
            · have htw := takeWhile_no_slash s hno
              rw [htw.1, htw.2, reFind_ch_nil]
              have hpath : splitOnSlash (x :: s) = [x :: s] :=
                splitOnSlash_no_slash _ (by
                  intro cc hcc
                  rcases List.mem_cons.mp hcc with h1 | h2
                  · exact h1 ▸ hx
                  · exact hno cc h2)
              rw [hpath, segFind_param_cons, if_neg (by simp),
                show segFind ((q :: rest').map pieceOf) [] = none from
                  segFind_cons_nil _ _]
            · subst hab
              have htw := takeWhile_append_slash a b hano
              rw [htw.1, htw.2, reFind_ch_cons, if_pos rfl, ihq b]
              rw [show (x :: (a ++ '/' :: b) : Str) = (x :: a) ++ '/' :: b from
                  rfl,
                splitOnSlash_append_slash (x :: a) b (by
                  intro cc hcc
                  rcases List.mem_cons.mp hcc with h1 | h2
                  · exact h1 ▸ hx
                  · exact hano cc h2),
                segFind_param_cons, if_neg (by simp)]
      | false =>
        have hpl : p.all plainChar = true := by
          rcases hp with h | h
          · rw [hcol] at h; cases h
          · exact h
        have hpno : ∀ c ∈ p, c ≠ '/' := plain_no_slash p hpl
        rw [show partItems p = p.map .ch from by simp [partItems, hcol],
          show pieceOf p = .lit p from by simp [pieceOf, hcol],
          reFindSubmatch_ch_append]
        rcases path_split_cases path with hno | ⟨a, b, hab, hano⟩
        · have hrhs : segFind
              (.lit p :: (q :: rest').map pieceOf) (splitOnSlash path)
              = none := by
            rw [splitOnSlash_no_slash path hno, segFind_lit_cons]
            by_cases hpe : path = p
            · rw [if_pos hpe,
                show segFind ((q :: rest').map pieceOf) [] = none from
                  segFind_cons_nil _ _]
            · rw [if_neg hpe]
          have hlhs : (if p.isPrefixOf path then
              reFindSubmatch (ReItem.ch '/' :: itemsFor (q :: rest'))
                (path.drop p.length)
              else none) = none := by
            by_cases hpre : p.isPrefixOf path = true
            · rw [if_pos hpre]
              obtain ⟨t, ht⟩ := List.isPrefixOf_iff_prefix.mp hpre
              cases t with
              | nil => rw [← ht, List.drop_left, reFind_ch_nil]
              | cons y t' =>
                have hy : y ≠ '/' := by
                  have hmem : y ∈ path := by rw [← ht]; simp
                  exact hno y hmem
                rw [← ht, List.drop_left, reFind_ch_cons,
                  if_neg (fun hh => hy hh.symm)]
            · rw [if_neg hpre]
          exact hlhs.trans hrhs.symm
        · subst hab
          rw [splitOnSlash_append_slash a b hano, segFind_lit_cons]
          by_cases hap : a = p
          · have hpre : p.isPrefixOf (a ++ '/' :: b) = true := by
              rw [hap]
              exact List.isPrefixOf_iff_prefix.mpr ⟨'/' :: b, rfl⟩
            rw [if_pos hpre, if_pos hap, ← hap, List.drop_left, reFind_ch_cons,
              if_pos rfl, ihq b]
          · rw [if_neg hap]
            have hlhs : (if p.isPrefixOf (a ++ '/' :: b) then
                reFindSubmatch (ReItem.ch '/' :: itemsFor (q :: rest'))
                  ((a ++ '/' :: b).drop p.length)
                else none) = none := by
              by_cases hpre : p.isPrefixOf (a ++ '/' :: b) = true
              · rw [if_pos hpre]
                obtain ⟨t, ht⟩ := List.isPrefixOf_iff_prefix.mp hpre
                cases t with
                | nil =>
                  have hin : ('/' : Char) ∈ p := by
                    rw [show p = a ++ '/' :: b from by simpa using ht]
                    simp
                  exact absurd rfl (hpno '/' hin)
                | cons y t' =>
                  by_cases hy : y = '/'
                  · subst hy
                    rcases slash_decomp_unique p a t' b hpno hano ht with
                      ⟨hpa, -⟩
                    exact absurd hpa.symm hap
                  · rw [← ht, List.drop_left, reFind_ch_cons,
                      if_neg (fun hh => hy hh.symm)]
              · rw [if_neg hpre]
            exact hlhs

theorem makeRequestHandler_def {H R : Type} (router : Router H R) (path : Str)
    (handlers : List H) :
    router.makeRequestHandler path handlers
      = { Path := path
          ParamNames := (buildRegexpFor path).2
          Regex := compileRegexp (buildRegexpFor path).1
          Tokenized := (buildRegexpFor path).2.length != 0
          Handlers := router.middlewareToMount path ++ handlers } := rfl

theorem matches_makeRequestHandler {H R : Type} (router : Router H R)
    (template path : Str) (handlers : List H)
    (htok : (splitOnSlash template).filterMap nameOf? ≠ [])
    (hplain : ∀ part ∈ splitOnSlash template,
      hasColonMarker part = true ∨ part.all plainChar = true) :
    (router.makeRequestHandler template handlers).matches path
      = match regexFindCaptures ((splitOnSlash template).map pieceOf) path with
        | none => (false, [])
        | some caps =>
          (true,
           insertAll [] (((splitOnSlash template).filterMap nameOf?).zip caps)) := by
  have hlen : ((splitOnSlash template).filterMap nameOf?).length ≠ 0 :=
    fun h => htok (List.length_eq_zero.mp h)
  have htokb : (((splitOnSlash template).filterMap nameOf?).length != 0) = true := by
    simpa using hlen
  have hre : compileRegexp
      ('^' :: joinWithEscapedSlash ((splitOnSlash template).map segText) ++ ['$'])
      = some (itemsFor (splitOnSlash template)) := by
    have h0 := compileRegexp_buildRegexpFor template hplain
    rw [buildRegexpFor_eq] at h0
    exact h0
  have hfind : reFindSubmatch (itemsFor (splitOnSlash template)) path
      = regexFindCaptures ((splitOnSlash template).map pieceOf) path := by
    rw [reFindSubmatch_itemsFor (splitOnSlash template)
        (splitOnSlash_ne_nil template) hplain path,
      segFind_eq_regexFind ((splitOnSlash template).map pieceOf)
        (splitOnSlash path) (splitOnSlash_members path)]
    rfl
  cases hcap : regexFindCaptures ((splitOnSlash template).map pieceOf) path with
  | none =>
    rw [hcap] at hfind
    simp only [RequestHandler.matches, makeRequestHandler_def,
      buildRegexpFor_eq, htokb]
    rw [hre]
    simp [hfind]
  | some caps =>
    rw [hcap] at hfind
    simp only [RequestHandler.matches, makeRequestHandler_def,
      buildRegexpFor_eq, htokb]
    rw [hre]
    simp [hfind, insertAll]

theorem matches_fst_iff {H R : Type} (router : Router H R)
    (template path : Str) (handlers : List H)
    (htok : (splitOnSlash template).filterMap nameOf? ≠ [])
    (hplain : ∀ part ∈ splitOnSlash template,
      hasColonMarker part = true ∨ part.all plainChar = true) :
    ((router.makeRequestHandler template handlers).matches path).1 = true
      ↔ specMatch template path := by
  rw [matches_makeRequestHandler router template path handlers htok hplain]
  simp only [regexFindCaptures]
  by_cases hcond :
      regexMatchCond ((splitOnSlash template).map pieceOf) (splitOnSlash path) = true
  · simp only [hcond, if_true]
    exact ⟨fun _ => (regexMatchCond_iff_specMatch template path).mp hcond,
      fun _ => trivial⟩
  · have hfalse :
        regexMatchCond ((splitOnSlash template).map pieceOf) (splitOnSlash path)
          = false := by
      simpa using hcond
    simp only [hfalse, Bool.false_eq_true, if_false]
    constructor
    · intro h
      cases h
    · intro hspec
      exact absurd ((regexMatchCond_iff_specMatch template path).mpr hspec) hcond

theorem getElem?_zip_of_components {α β : Type} (l₁ : List α) (l₂ : List β)
    (i : Nat) (a : α) (b : β) (h₁ : l₁[i]? = some a) (h₂ : l₂[i]? = some b) :
    (l₁.zip l₂)[i]? = some (a, b) := by
  obtain ⟨hi₁, e₁⟩ := List.getElem?_eq_some.mp h₁
  obtain ⟨hi₂, e₂⟩ := List.getElem?_eq_some.mp h₂
  have hiz : i < (l₁.zip l₂).length := by
    rw [List.length_zip]
    omega
  rw [List.getElem?_eq_getElem hiz, List.getElem_zip, e₁, e₂]

theorem getElem?_zip_components {α β : Type} (l₁ : List α) (l₂ : List β)
    (i : Nat) (p : α × β) (h : (l₁.zip l₂)[i]? = some p) :
    l₁[i]? = some p.1 ∧ l₂[i]? = some p.2 := by
  obtain ⟨hi, e⟩ := List.getElem?_eq_some.mp h
  have hlen := hi
  rw [List.length_zip] at hlen
  have h₁ : i < l₁.length := by omega
  have h₂ : i < l₂.length := by omega
  rw [List.getElem_zip] at e
  constructor
  · rw [List.getElem?_eq_getElem h₁, ← e]
  · rw [List.getElem?_eq_getElem h₂, ← e]

theorem mapGet_insertAll_lastIdx {κ ν : Type} [DecidableEq κ]
    (m : GoMap κ ν) (l : List (κ × ν)) (i : Nat) (k : κ) (v : ν)
    (hget : l[i]? = some (k, v))
    (hlast : ∀ j, i < j → ∀ p, l[j]? = some p → p.1 ≠ k) :
    mapGet (insertAll m l) k = some v := by
  obtain ⟨hi, hl⟩ := List.getElem?_eq_some.mp hget
  have hdecomp : l = l.take i ++ (k, v) :: l.drop (i + 1) := by
    conv_lhs => rw [← List.take_append_drop i l]
    congr 1
    rw [List.drop_eq_getElem_cons hi, hl]
  have hnot : k ∉ (l.drop (i + 1)).map Prod.fst := by
    intro hmem
    obtain ⟨p, hp, hfst⟩ := List.mem_map.mp hmem
    obtain ⟨j, hj, rfl⟩ := List.mem_iff_getElem.mp hp
    rw [List.getElem_drop] at hfst
    have hjlen : i + 1 + j < l.length := by
      have := hj
      rw [List.length_drop] at this
      omega
    refine hlast (i + 1 + j) (by omega) _ ?_ hfst
    rw [List.getElem?_eq_getElem hjlen]
  have h1 : insertAll m l = insertAll m (l.take i ++ (k, v) :: l.drop (i + 1)) :=
    congrArg (insertAll m) hdecomp
  rw [h1]
  exact mapGet_insertAll_middle m _ _ _ _ hnot

theorem matches_lookup_last {H R : Type} (router : Router H R)
    (template path : Str) (handlers : List H)
    (hplain : ∀ part ∈ splitOnSlash template,
      hasColonMarker part = true ∨ part.all plainChar = true)
    (hm : ((router.makeRequestHandler template handlers).matches path).1 = true)
    (i : Nat) (n seg : Str)
    (hname : (router.makeRequestHandler template handlers).ParamNames[i]? = some n)
    (hseg : (specParamSegments template path)[i]? = some seg)
    (hlast : ∀ j, i < j →
      (router.makeRequestHandler template handlers).ParamNames[j]? ≠ some n) :
    mapGet ((router.makeRequestHandler template handlers).matches path).2 n
      = some seg := by
  have hnames : (router.makeRequestHandler template handlers).ParamNames
      = (splitOnSlash template).filterMap nameOf? := by
    rw [makeRequestHandler_def, buildRegexpFor_eq]
  rw [hnames] at hname hlast
  have htok : (splitOnSlash template).filterMap nameOf? ≠ [] := by
    intro hnil
    rw [hnil] at hname
    simp at hname
  have hmatch :=
    matches_makeRequestHandler router template path handlers htok hplain
  rw [hmatch] at hm ⊢
  revert hm
  cases hcap : regexFindCaptures ((splitOnSlash template).map pieceOf) path with
  | none => intro hm; cases hm
  | some caps =>
    intro _
    dsimp only
    simp only [regexFindCaptures] at hcap
    by_cases hcond :
        regexMatchCond ((splitOnSlash template).map pieceOf) (splitOnSlash path)
          = true
    · rw [if_pos hcond] at hcap
      have hcaps : caps = specParamSegments template path := by
        have := Option.some.inj hcap
        rw [← this, regexCaptures_eq_specParamSegments]
      subst hcaps
      apply mapGet_insertAll_lastIdx _ _ i
      · exact getElem?_zip_of_components _ _ _ _ _ hname hseg
      · intro j hij p hp
        intro hcontra
        have := (getElem?_zip_components _ _ _ _ hp).1
        rw [hcontra] at this
        exact hlast j hij this
    · rw [if_neg hcond] at hcap
      cases hcap

theorem error_fst {H R K V : Type} (cntxt : RequestContext H R K V)
    (err : Str) (code : Int) :
    (cntxt.error err code).1 = { cntxt with inError := true } := by
  rw [RequestContext.error]
  cases cntxt.errorHandler with
  | none => rfl
  | some r => cases r <;> rfl

theorem runOps_inError_no_invocation {H R K V : Type}
    (cntxt : RequestContext H R K V) (hinerr : cntxt.inError = true)
    (ops : List ContextOp) :
    (runOps cntxt ops).2.countP Event.isInvocation = 0 := by
  induction ops generalizing cntxt with
  | nil => rfl
  | cons op ops ih =>
    cases op with
    | next =>
      have hnext : cntxt.next = (cntxt, []) := by
        rw [RequestContext.next, if_pos hinerr]
      simp [runOps, hnext, ih cntxt hinerr]
    | fail err code =>
      have hin : (cntxt.error err code).1.inError = true := by
        rw [error_fst]
      have hsnd : (cntxt.error err code).2.countP Event.isInvocation = 0 := by
        rw [RequestContext.error]
        cases cntxt.errorHandler with
        | none => rfl
        | some r => cases r <;> rfl
      simp [runOps, List.countP_append, hsnd, ih _ hin]

theorem filterMap_ite_eq_filter_map {α β : Type} (l : List α) (p : α → Bool)
    (f : α → β) :
    l.filterMap (fun x => if p x then some (f x) else none)
      = (l.filter p).map f := by
  induction l with
  | nil => rfl
  | cons x xs ih => by_cases h : p x <;> simp [h, ih]

theorem serveScan_append_no_match {H : Type} (pre rest : List (RequestHandler H))
    (path : Str) (hpre : ∀ g ∈ pre, (g.matches path).1 = false) :
    serveScan (pre ++ rest) path = serveScan rest path := by
  induction pre with
  | nil => rfl
  | cons g gs ih =>
    have hg := hpre g (by simp)
    have hrest : ∀ x ∈ gs, (x.matches path).1 = false :=
      fun x hx => hpre x (by simp [hx])
    simp [serveScan, hg, ih hrest]

theorem error_count_one {H R K V : Type} (cntxt : RequestContext H R K V)
    (resp : ErrorResponder R) (hconf : cntxt.errorHandler = some resp)
    (err : Str) (code : Int) :
    (cntxt.error err code).2.countP Event.isResponderCall = 1 := by
  simp only [RequestContext.error, hconf]
  cases resp <;> rfl

theorem runOps_fails_count {H R K V : Type} (cntxt : RequestContext H R K V)
    (resp : ErrorResponder R) (hconf : cntxt.errorHandler = some resp)
    (fails : List (Str × Int)) :
    (runOps cntxt (fails.map (fun f => ContextOp.fail f.1 f.2))).2.countP
        Event.isResponderCall = fails.length := by
  induction fails generalizing cntxt with
  | nil => rfl
  | cons f fs ih =>
    have h1 := error_count_one cntxt resp hconf f.1 f.2
    have h2 : (cntxt.error f.1 f.2).1.errorHandler = some resp := by
      rw [error_fst]
      exact hconf
    simp [runOps, List.countP_append, h1, ih _ h2, Nat.add_comm]

/-- C2: for every router, method and request path, dispatch scans the
method's bucket in registration order and selects the first-registered entry
whose pattern matches the path — the context it dispatches holds exactly that
entry's handler chain and parameters, whatever entries follow it. -/
theorem serveHTTP_selects_first_match {H R K V : Type} (router : Router H R)
    (method path : Str) (pre post : List (RequestHandler H))
    (reqHandler : RequestHandler H)
    (hbucket : (mapGet router.routes method).getD [] = pre ++ reqHandler :: post)
    (hpre : ∀ g ∈ pre, (g.matches path).1 = false)
    (hmatch : (reqHandler.matches path).1 = true) :
    router.serveHTTP (K := K) (V := V) method path
      = some { Params := (reqHandler.matches path).2
               inError := false
               handlers := reqHandler.Handlers
               currentHandler := 0
               errorHandler := router.ErrorHandler
               store := none } := by
  rw [Router.serveHTTP, hbucket, serveScan_append_no_match _ _ _ hpre]
  simp [serveScan, hmatch]

/-- Witness for C2: with two identical templates registered for GET, the
first-registered chain (handler tag 1) is the one dispatched. -/
theorem serveHTTP_selects_first_match_witness :
    (((NewRouter Nat Nat).getRoute "/a".toList [1]).getRoute
        "/a".toList [2]).serveHTTP (K := Nat) (V := Nat)
        "GET".toList "/a".toList
      = some { Params := []
               inError := false
               handlers := [1]
               currentHandler := 0
               errorHandler := some .default
               store := none } := by
  have h := serveHTTP_selects_first_match (K := Nat) (V := Nat)
    (((NewRouter Nat Nat).getRoute "/a".toList [1]).getRoute "/a".toList [2])
    "GET".toList "/a".toList []
    [((NewRouter Nat Nat).getRoute "/a".toList [1]).makeRequestHandler
      "/a".toList [2]]
    ((NewRouter Nat Nat).makeRequestHandler "/a".toList [1])
    (by decide) (by decide) (by decide)
  rw [h]
  decide

/-- C3: a route registered now stores, ahead of its own handlers, exactly the
handlers of the mount entries already registered whose prefix test accepts
the route's template, in mount-registration order; registering a mount
afterwards leaves every stored route untouched. -/
theorem register_resolves_mounts_at_registration {H R : Type}
    (router : Router H R) (method path : Str) (handlers : List H)
    (mountPath : Str) (mh : H) :
    mapGet (router.registerRequestHandler method path handlers).routes method
      = some ((mapGet router.routes method).getD []
          ++ [router.makeRequestHandler path handlers])
    ∧ (router.makeRequestHandler path handlers).Handlers
      = (router.middleware.filter (fun mw => mw.shouldMount path)).map
          (fun mw => mw.Handle) ++ handlers
    ∧ ((router.registerRequestHandler method path handlers).mount
          mountPath mh).routes
      = (router.registerRequestHandler method path handlers).routes := by
  refine ⟨?_, ?_, rfl⟩
  · rw [Router.registerRequestHandler]
    exact mapGet_mapInsert_self _ _ _
  · rw [makeRequestHandler_def]
    dsimp only
    rw [Router.middlewareToMount, filterMap_ite_eq_filter_map]

/-- C4: after `Error` has set the abort flag, no sequence of further `Next`
or `Error` calls on that context ever invokes anything — neither a
registered handler nor even the sentinel. -/
theorem no_handler_runs_after_error {H R K V : Type}
    (cntxt : RequestContext H R K V) (err : Str) (code : Int)
    (ops : List ContextOp) :
    (runOps (cntxt.error err code).1 ops).2.countP Event.isInvocation = 0 := by
  apply runOps_inError_no_invocation
  rw [error_fst]

/-- C6: when the cursor is at or beyond the end of the handler list, any
number of `Next` calls invokes no registered handler; every event produced is
the defensive no-op sentinel (the model is total, so no fault occurs). -/
theorem next_past_end_is_noop {H R K V : Type}
    (cntxt : RequestContext H R K V)
    (hend : cntxt.handlers.length ≤ cntxt.currentHandler) (n : Nat) :
    (nextN cntxt n).2.countP Event.isHandlerRun = 0
    ∧ (nextN cntxt n).2.all Event.isSentinelRun = true := by
  induction n generalizing cntxt with
  | zero => exact ⟨rfl, rfl⟩
  | succ n ih =>
    by_cases hin : cntxt.inError = true
    · have hnext : cntxt.next = (cntxt, []) := by
        rw [RequestContext.next, if_pos hin]
      simpa [nextN, hnext] using ih cntxt hend
    · have hnext : cntxt.next
          = ({ cntxt with currentHandler := cntxt.currentHandler + 1 },
             [.invokedNoop]) := by
        rw [RequestContext.next, if_neg hin, dif_pos (by omega)]
      have hend' : ({ cntxt with currentHandler := cntxt.currentHandler + 1 } :
          RequestContext H R K V).handlers.length
            ≤ cntxt.currentHandler + 1 := by
        simp only
        omega
      obtain ⟨ih1, ih2⟩ := ih _ hend'
      refine ⟨?_, ?_⟩ <;>
        simp [nextN, hnext, List.countP_cons, ih1, ih2,
          Event.isHandlerRun, Event.isSentinelRun]

/-- Witness for C6: an exhausted context (empty handler list) takes three
`Next` calls without running any registered handler. -/
theorem next_past_end_is_noop_witness :
    (nextN { Params := [], inError := false, handlers := ([] : List Nat),
             currentHandler := 0, errorHandler := (none : Option (ErrorResponder Nat)),
             store := (none : Option (GoMap Nat (Option Nat))) } 3).2.countP
        Event.isHandlerRun = 0
    ∧ (nextN { Params := [], inError := false, handlers := ([] : List Nat),
               currentHandler := 0, errorHandler := (none : Option (ErrorResponder Nat)),
               store := (none : Option (GoMap Nat (Option Nat))) } 3).2.all
        Event.isSentinelRun = true :=
  next_past_end_is_noop _ (by decide) 3

/-- C7: every `Error` call sets the abort flag and calls the configured
responder exactly once — also when the flag was already set — so `n` `Fail`
calls yield `n` responder invocations, with no deduplication. -/
theorem fail_invokes_responder_each_call {H R K V : Type}
    (cntxt : RequestContext H R K V) (resp : ErrorResponder R)
    (hconf : cntxt.errorHandler = some resp) (err : Str) (code : Int)
    (fails : List (Str × Int)) :
    (cntxt.error err code).1.inError = true
    ∧ (cntxt.error err code).2.countP Event.isResponderCall = 1
    ∧ (runOps cntxt (fails.map (fun f => ContextOp.fail f.1 f.2))).2.countP
        Event.isResponderCall = fails.length := by
  refine ⟨?_, error_count_one cntxt resp hconf err code,
    runOps_fails_count cntxt resp hconf fails⟩
  rw [error_fst]

/-- Witness for C7: two consecutive `Fail` calls on an already-aborted
context produce two responder invocations. -/
theorem fail_invokes_responder_each_call_witness :
    (let cntxt : RequestContext Nat Nat Nat Nat :=
      { Params := [], inError := true, handlers := [], currentHandler := 0,
        errorHandler := some ErrorResponder.default, store := none }
     (cntxt.error "a".toList 400).1.inError = true
     ∧ (cntxt.error "a".toList 400).2.countP Event.isResponderCall = 1
     ∧ (runOps cntxt
          ([("a".toList, (400 : Int)), ("b".toList, 500)].map
            (fun f => ContextOp.fail f.1 f.2))).2.countP
          Event.isResponderCall = 2) :=
  fail_invokes_responder_each_call _ ErrorResponder.default rfl
    "a".toList 400 [("a".toList, 400), ("b".toList, 500)]

/-- C9 (counterexample): the mount matcher compiles `` `^\` ++ mountPath ``,
escaping only the first character of the mount path, so a regexp
metacharacter inside the mount path keeps its regexp meaning: the mount
registered for `/a.b` also mounts on `/aXb/zz`, which does not start with
the raw string `/a.b`. -/
theorem shouldMount_metachar_counterexample :
    ((NewRouter Nat Nat).mount "/a.b".toList 7).middleware.map
        (fun m => (m.shouldMount "/aXb/zz".toList,
                   decide ("/a.b".toList <+: "/aXb/zz".toList)))
      = [(true, false)] := by decide

/-- C9 (amended): for a mount entry registered by `Mount` whose mount path is
`/` followed by characters that are not regexp metacharacters — the only
shape the raw-string-prefix reading is sound for, since everything after the
first character of the mount path stays unescaped regexp text — the mount
test accepts a candidate path exactly when the path starts with the mount
path as a raw string prefix.  The test is not segment-aware: a mount on
`/us` applies to `/use` and to `/user/5` (see the witness). -/
theorem shouldMount_iff_raw_string_prefix {H : Type}
    (mReqHandler : MiddlewareRequestHandler H) (rest0 path : Str)
    (hmatcher : mReqHandler.Matcher = compileMountRegexp mReqHandler.MountPath)
    (hshape : mReqHandler.MountPath = '/' :: rest0)
    (hplain : rest0.all plainChar = true) :
    mReqHandler.shouldMount path = true ↔ mReqHandler.MountPath <+: path := by
  have hm : mReqHandler.Matcher = some (('/' :: rest0).map .ch) := by
    rw [hmatcher, hshape]
    show parseReItems ('\\' :: '/' :: rest0) = _
    rw [parseReItems_escSlash rest0]
    have h2 := parseReItems_plain_append rest0 hplain []
    rw [List.append_nil, parseReItems_nil] at h2
    rw [h2]
    simp
  have hsm : mReqHandler.shouldMount path
      = reMatchesAtStart (('/' :: rest0).map .ch) path := by
    simp only [MiddlewareRequestHandler.shouldMount, hm]
  rw [hsm, reMatchesAtStart_ch, hshape]
  exact List.isPrefixOf_iff_prefix

/-- Witness for C9: a mount entry registered for `/us` accepts `/use` and
`/user/5`, both raw string extensions of `/us` but not path segments. -/
theorem shouldMount_iff_raw_string_prefix_witness :
    (let entry : MiddlewareRequestHandler Nat :=
       { MountPath := "/us".toList, Handle := 0,
         Matcher := compileMountRegexp "/us".toList }
     (entry.shouldMount "/use".toList = true ↔ "/us".toList <+: "/use".toList)
     ∧ (entry.shouldMount "/user/5".toList = true
          ↔ "/us".toList <+: "/user/5".toList)
     ∧ "/us".toList <+: "/use".toList ∧ "/us".toList <+: "/user/5".toList) :=
  ⟨ shouldMount_iff_raw_string_prefix _ "us".toList "/use".toList rfl
      (by decide) (by decide),
   shouldMount_iff_raw_string_prefix _ "us".toList "/user/5".toList rfl
      (by decide) (by decide),
   by decide, by decide⟩

theorem makeStoreIfNotExist_store {H R K V : Type}
    (cntxt : RequestContext H R K V) :
    cntxt.makeStoreIfNotExist.store = some (cntxt.store.getD []) := by
  rw [RequestContext.makeStoreIfNotExist]
  cases h : cntxt.store with
  | none => rfl
  | some st =>
    dsimp only
    rw [h]
    rfl

theorem get_snd {H R K V : Type} [DecidableEq K]
    (cntxt : RequestContext H R K V) (key : K) :
    (cntxt.get key).2 = ((mapGet (cntxt.store.getD []) key).getD none,
                         (mapGet (cntxt.store.getD []) key).isSome) := by
  simp only [RequestContext.get, makeStoreIfNotExist_store, Option.getD_some]
  cases mapGet (cntxt.store.getD []) key <;> rfl

theorem set_def {H R K V : Type} [DecidableEq K]
    (cntxt : RequestContext H R K V) (key : K) (val : Option V) :
    cntxt.set key val
      = if ((mapGet (cntxt.store.getD []) key).getD none).isSome then
          (cntxt.makeStoreIfNotExist, false)
        else
          ({ cntxt.makeStoreIfNotExist with
              store := some (mapInsert (cntxt.store.getD []) key val) }, true) := by
  simp only [RequestContext.set, makeStoreIfNotExist_store, Option.getD_some]

theorem forceSet_def {H R K V : Type} [DecidableEq K]
    (cntxt : RequestContext H R K V) (key : K) (val : Option V) :
    cntxt.forceSet key val
      = { cntxt.makeStoreIfNotExist with
          store := some (mapInsert (cntxt.store.getD []) key val) } := by
  simp only [RequestContext.forceSet, makeStoreIfNotExist_store, Option.getD_some]

/-- C5 counterexample: after `ForceSet(3, nil)` the key 3 is present
(`Get` returns ok = true), yet `Set(3, 9)` returns true and overwrites —
the claim requires false and no overwrite for a present key. -/
theorem set_overwrites_present_nil_value :
    (let cntxt : RequestContext Nat Nat Nat Nat :=
      { Params := [], inError := false, handlers := [], currentHandler := 0,
        errorHandler := none, store := none }
     let c1 := cntxt.forceSet 3 none
     ((c1.get 3).2.2 = true)
     ∧ ((c1.set 3 (some 9)).2 = true)
     ∧ (((c1.set 3 (some 9)).1.get 3).2.1 = some 9)) := by
  decide

/-- C5 (amended): `Set(key, v)` returns true and makes `Get(key)` yield `v`
exactly when the Go map read of the key is nil — the key absent or bound to
the nil value; when the key is present with a non-nil value, `Set` returns
false and `Get` is unchanged; `ForceSet` always makes `Get` yield `(v, ok)`.
-/
theorem store_set_forceSet_semantics {H R K V : Type} [DecidableEq K]
    (cntxt : RequestContext H R K V) (key : K) (val : Option V) :
    (goStoreRead cntxt key = none →
      (cntxt.set key val).2 = true
      ∧ ((cntxt.set key val).1.get key).2 = (val, true))
    ∧ (goStoreRead cntxt key ≠ none →
      (cntxt.set key val).2 = false
      ∧ ((cntxt.set key val).1.get key).2 = (cntxt.get key).2)
    ∧ ((cntxt.forceSet key val).get key).2 = (val, true) := by
  have hmkD : cntxt.makeStoreIfNotExist.store.getD [] = cntxt.store.getD [] := by
    rw [makeStoreIfNotExist_store, Option.getD_some]
  refine ⟨?_, ?_, ?_⟩
  · intro hnil
    rw [goStoreRead] at hnil
    have hcond : ((mapGet (cntxt.store.getD []) key).getD none).isSome = false := by
      rw [hnil]
      rfl
    rw [set_def, hcond]
    simp only [Bool.false_eq_true, if_false]
    refine ⟨trivial, ?_⟩
    rw [get_snd]
    simp only [Option.getD_some, mapGet_mapInsert_self]
    rfl
  · intro hsome
    have hcond : ((mapGet (cntxt.store.getD []) key).getD none).isSome = true := by
      rw [goStoreRead] at hsome
      exact Option.isSome_iff_ne_none.mpr hsome
    rw [set_def, hcond, if_pos rfl]
    refine ⟨rfl, ?_⟩
    rw [get_snd, get_snd, hmkD]
  · rw [forceSet_def, get_snd]
    simp only [Option.getD_some, mapGet_mapInsert_self]
    rfl

/-- Witness for C5 (amended): a fresh key is stored (Set true, Get yields
it); a key present with a non-nil value rejects Set; ForceSet overwrites. -/
theorem store_set_forceSet_semantics_witness :
    (let cntxt : RequestContext Nat Nat Nat Nat :=
      { Params := [], inError := false, handlers := [], currentHandler := 0,
        errorHandler := none, store := none }
     ((cntxt.set 3 (some 7)).2 = true
        ∧ (((cntxt.set 3 (some 7)).1.get 3).2 = (some 7, true)))
     ∧ (((cntxt.forceSet 4 (some 1)).set 4 (some 9)).2 = false
        ∧ ((((cntxt.forceSet 4 (some 1)).set 4 (some 9)).1.get 4).2
            = ((cntxt.forceSet 4 (some 1)).get 4).2))
     ∧ ((cntxt.forceSet 5 (some 2)).get 5).2 = (some 2, true)) :=
  ⟨(store_set_forceSet_semantics _ 3 (some 7)).1 (by decide),
   (store_set_forceSet_semantics _ 4 (some 9)).2.1 (by decide),
   (store_set_forceSet_semantics _ 5 (some 2)).2.2⟩

/-- C8 counterexample: a context whose error handler is nil does not fall
back to the default responder on `Fail` — the model records a nil-function
call (a runtime panic), not a verbatim write of the message. -/
theorem nil_error_handler_faults :
    (let cntxt : RequestContext Nat Nat Nat Nat :=
      { Params := [], inError := false, handlers := [], currentHandler := 0,
        errorHandler := none, store := none }
     (cntxt.error "boom".toList 500).2 = [Event.nilCall]
     ∧ Event.nilCall ≠ Event.wrote (H := Nat) (R := Nat) "boom".toList 500) := by
  decide

/-- C8 (amended): `NewRouter` installs the default error responder at
construction, so a router whose `ErrorHandler` is still the default at
dispatch time gives every `Fail(message, code)` a verbatim write of the
message with the given status code; the fallback lives in construction, not
in dispatch — an `ErrorHandler` explicitly set to nil is not guarded. -/
theorem default_error_responder_from_construction {H R K V : Type}
    (router : Router H R) (method path : Str)
    (cntxt : RequestContext H R K V) (err : Str) (code : Int)
    (hdefault : router.ErrorHandler = some ErrorResponder.default)
    (hdispatch : router.serveHTTP (K := K) (V := V) method path = some cntxt) :
    (NewRouter H R).ErrorHandler = some ErrorResponder.default
    ∧ (cntxt.error err code).2 = [Event.wrote err code] := by
  refine ⟨rfl, ?_⟩
  have hctx : cntxt.errorHandler = router.ErrorHandler := by
    rw [Router.serveHTTP] at hdispatch
    revert hdispatch
    cases serveScan ((mapGet router.routes method).getD []) path with
    | none =>
      intro h
      cases h
    | some pr =>
      intro h
      have := Option.some.inj h
      subst this
      rfl
  simp only [RequestContext.error, hctx, hdefault]

/-- Witness for C8 (amended): a `NewRouter`-built router dispatching `GET /`
yields a context on which `Fail("boom", 500)` writes "boom" verbatim with
status 500. -/
theorem default_error_responder_witness :
    (NewRouter Nat Nat).ErrorHandler = some ErrorResponder.default
    ∧ (({ Params := [], inError := false, handlers := [5], currentHandler := 0,
          errorHandler := some ErrorResponder.default, store := none } :
            RequestContext Nat Nat Nat Nat).error "boom".toList 500).2
        = [Event.wrote "boom".toList 500] :=
  default_error_responder_from_construction
    ((NewRouter Nat Nat).getRoute "/".toList [5]) "GET".toList "/".toList
    _ "boom".toList 500 rfl (by decide)

/-- C1 counterexample: two independent failures of the claim.  First, for
the template `/:a/:a` and candidate `/x/y` the match succeeds, the 0-th
parameter name is `a` and the 0-th parameter position holds `x`, yet the
map binds `a` to `y` — the 0-th name is not bound to the 0-th
parameter-position segment.  Second, literal segments are embedded into the
pattern as raw regexp text, so for the template `/a.b/:id` the candidate
`/axb/14` matches (`.` matches any character) even though its literal
segment `axb` differs from the template's `a.b` — the claimed
equal-literal-segments condition does not hold. -/
theorem positional_binding_counterexample :
    (let reqHandler := (NewRouter Nat Nat).makeRequestHandler "/:a/:a".toList []
     ((reqHandler.matches "/x/y".toList).1 = true)
     ∧ reqHandler.ParamNames[0]? = some "a".toList
     ∧ (specParamSegments "/:a/:a".toList "/x/y".toList)[0]? = some "x".toList
     ∧ mapGet (reqHandler.matches "/x/y".toList).2 "a".toList
        = some "y".toList
     ∧ ("y".toList : Str) ≠ "x".toList
     ∧ ((((NewRouter Nat Nat).makeRequestHandler "/a.b/:id".toList []).matches
          "/axb/14".toList).1 = true)
     ∧ ¬ specMatch "/a.b/:id".toList "/axb/14".toList) := by
  decide

/-- C1 (amended): for a template with at least one parameter segment and no
regexp metacharacter in its literal segments (literal segments are embedded
into the pattern unquoted, so a metacharacter changes their meaning — see
the counterexample), the compiled matcher accepts a candidate iff it has
the template's segment count, equal literal segments, and nonempty `/`-free
parameter segments; on a match the `i`-th parameter name is bound to the
candidate's segment at the `i`-th parameter position provided that name
does not recur at a later parameter position (a repeated name keeps only
its last capture, see the counterexample). -/
theorem tokenized_matcher_spec {H R : Type} (router : Router H R)
    (template path : Str) (handlers : List H)
    (htok : ∃ part ∈ splitOnSlash template, hasColonMarker part = true)
    (hplain : ∀ part ∈ splitOnSlash template,
      hasColonMarker part = true ∨ part.all plainChar = true) :
    (((router.makeRequestHandler template handlers).matches path).1 = true
      ↔ specMatch template path)
    ∧ (((router.makeRequestHandler template handlers).matches path).1 = true →
      ∀ (i : Nat) (n seg : Str),
        (router.makeRequestHandler template handlers).ParamNames[i]? = some n →
        (specParamSegments template path)[i]? = some seg →
        (∀ j, i < j →
          (router.makeRequestHandler template handlers).ParamNames[j]?
            ≠ some n) →
        mapGet ((router.makeRequestHandler template handlers).matches path).2 n
          = some seg) := by
  have htok' : (splitOnSlash template).filterMap nameOf? ≠ [] := by
    obtain ⟨part, hmem, hcol⟩ := htok
    intro hnil
    have hmem' : trimColon part ∈ (splitOnSlash template).filterMap nameOf? :=
      List.mem_filterMap.mpr ⟨part, hmem, by simp [nameOf?, hcol]⟩
    rw [hnil] at hmem'
    cases hmem'
  refine ⟨matches_fst_iff router template path handlers htok' hplain, ?_⟩
  intro hm i n seg hname hseg hlast
  exact matches_lookup_last router template path handlers hplain hm i n seg
    hname hseg hlast

/-- Witness for C1 (amended): template `/user/:id` matches `/user/14` per the
spec condition and binds `id` to `14`. -/
theorem tokenized_matcher_spec_witness :
    specMatch "/user/:id".toList "/user/14".toList
    ∧ mapGet (((NewRouter Nat Nat).makeRequestHandler "/user/:id".toList
        []).matches "/user/14".toList).2 "id".toList = some "14".toList := by
  have h := tokenized_matcher_spec (NewRouter Nat Nat) "/user/:id".toList
    "/user/14".toList [] (by decide) (by decide)
  refine ⟨h.1.mp (by decide), ?_⟩
  refine h.2 (by decide) 0 "id".toList "14".toList (by decide) (by decide) ?_
  intro j hj
  have hlen : (((NewRouter Nat Nat).makeRequestHandler "/user/:id".toList
      []).ParamNames).length ≤ j := by
    have hone : (((NewRouter Nat Nat).makeRequestHandler "/user/:id".toList
        []).ParamNames).length = 1 := by decide
    omega
  rw [List.getElem?_eq_none hlen]
  intro hc
  cases hc

theorem matches_insertAll {H : Type} (rh : RequestHandler H) (path : Str)
    (items : List ReItem) (caps : List Str)
    (htok : rh.Tokenized = true) (hre : rh.Regex = some items)
    (hfind : reFindSubmatch items path = some caps) :
    rh.matches path = (true, insertAll [] (rh.ParamNames.zip caps)) := by
  simp [RequestHandler.matches, htok, hre, hfind, insertAll]

/-- C10: when a parameter name recurs in several parameter segments, a
successful match of the compiled pattern binds that name in the Params map
to the capture of the last (rightmost) such position; an earlier, different
capture for the name is overwritten and not retrievable. -/
theorem repeated_name_last_capture_wins {H R : Type} (router : Router H R)
    (template path : Str) (handlers : List H)
    (items : List ReItem) (caps : List Str)
    (hre : (router.makeRequestHandler template handlers).Regex = some items)
    (hfind : reFindSubmatch items path = some caps)
    (i j : Nat) (n segI segJ : Str)
    (hij : i < j)
    (hni : (router.makeRequestHandler template handlers).ParamNames[i]?
      = some n)
    (hnj : (router.makeRequestHandler template handlers).ParamNames[j]?
      = some n)
    (hcapI : caps[i]? = some segI)
    (hcapJ : caps[j]? = some segJ)
    (hlast : ∀ k, j < k →
      (router.makeRequestHandler template handlers).ParamNames[k]? ≠ some n) :
    mapGet ((router.makeRequestHandler template handlers).matches path).2 n
      = some segJ
    ∧ (segI ≠ segJ →
      mapGet ((router.makeRequestHandler template handlers).matches path).2 n
        ≠ some segI) := by
  have hlenP :
      j < (router.makeRequestHandler template handlers).ParamNames.length :=
    (List.getElem?_eq_some.mp hnj).1
  have htokT : (router.makeRequestHandler template handlers).Tokenized
      = true := by
    show (((router.makeRequestHandler template
      handlers).ParamNames.length != 0) = true)
    have hne0 : (router.makeRequestHandler
        template handlers).ParamNames.length ≠ 0 := by omega
    simpa using hne0
  have hmatch := matches_insertAll
    (router.makeRequestHandler template handlers) path items caps htokT hre
    hfind
  rw [hmatch]
  dsimp only
  have hmain : mapGet (insertAll ([] : GoMap Str Str)
      ((router.makeRequestHandler template handlers).ParamNames.zip caps)) n
      = some segJ := by
    apply mapGet_insertAll_lastIdx _ _ j
    · exact getElem?_zip_of_components _ _ _ _ _ hnj hcapJ
    · intro k hk p hp hcontra
      have hpk := (getElem?_zip_components _ _ _ _ hp).1
      rw [hcontra] at hpk
      exact hlast k hk hpk
  refine ⟨hmain, fun hne hcontra => ?_⟩
  rw [hmain] at hcontra
  exact hne (Option.some.inj hcontra).symm

/-- Witness for C10: in `/:a/:a` matched against `/x/y`, the compiled
pattern captures `x` then `y`; the repeated name `a` is bound to the last
capture `y`, and `x` is not retrievable. -/
theorem repeated_name_last_capture_wins_witness :
    mapGet (((NewRouter Nat Nat).makeRequestHandler "/:a/:a".toList
        []).matches "/x/y".toList).2 "a".toList = some "y".toList
    ∧ (("x".toList : Str) ≠ "y".toList →
      mapGet (((NewRouter Nat Nat).makeRequestHandler "/:a/:a".toList
          []).matches "/x/y".toList).2 "a".toList ≠ some "x".toList) := by
  refine repeated_name_last_capture_wins (NewRouter Nat Nat) "/:a/:a".toList
    "/x/y".toList []
    [ReItem.ch '/', ReItem.group, ReItem.ch '/', ReItem.group]
    ["x".toList, "y".toList] (by decide) (by decide) 0 1 "a".toList
    "x".toList "y".toList (by omega) (by decide) (by decide) (by decide)
    (by decide) ?_
  intro k hk
  have hlen : (((NewRouter Nat Nat).makeRequestHandler "/:a/:a".toList
      []).ParamNames).length ≤ k := by
    have htwo : (((NewRouter Nat Nat).makeRequestHandler "/:a/:a".toList
        []).ParamNames).length = 2 := by decide
    omega
  rw [List.getElem?_eq_none hlen]
  intro hc
  cases hc

end GoRouter
